import Mathlib

/-!
Verification of the Catena catalogue-coordinator core: a shallow embedding of
the consistent-hash ring, placement driver, health supervisor, worker pool,
node registry and SPARQL forwarding handler, with theorems settling the
specification's claims about them.

Python dictionaries are modelled as association lists with overwrite-on-set
semantics, Redis sets as lists without a duplicate-adding operation, and the
MD5 hash (an external library call) as an explicit function parameter
`hash : String → Nat`.  Remote HTTP calls are modelled by Boolean / Option
oracles passed as parameters.
-/

namespace Catena

/-- Python dict lookup `d.get(k)` / `d[k]` on an association list. -/
def dget? {α β : Type} [DecidableEq α] (l : List (α × β)) (k : α) : Option β :=
  (l.find? (fun p => p.1 = k)).map (fun p => p.2)

/-- Python `k in d`. -/
def dcontains {α β : Type} [DecidableEq α] (l : List (α × β)) (k : α) : Bool :=
  l.any (fun p => p.1 = k)

/-- Python `d[k] = v`: overwrite when the key is present, append otherwise. -/
def dset {α β : Type} [DecidableEq α] (l : List (α × β)) (k : α) (v : β) : List (α × β) :=
  if dcontains l k then l.map (fun p => if p.1 = k then (k, v) else p) else l ++ [(k, v)]

/-- Python `del d[k]`. -/
def ddel {α β : Type} [DecidableEq α] (l : List (α × β)) (k : α) : List (α × β) :=
  l.filter (fun p => p.1 ≠ k)

/-- A catalogue node record; only the fields the verified operations read
(`id` and `node_url`) are kept. -/
structure Node where
  id : String
  url : String
deriving DecidableEq, Repr

/-- State of `ConsistentHashRing` (src/utils/hash_ring/consistent_hash.py):
`ring` maps a slot hash to an owner id, `sorted_keys` is the slot index,
`nodes` the member list. -/
structure RingState where
  ring : List (Nat × String)
  sorted_keys : List Nat
  nodes : List Node
deriving DecidableEq, Repr

/-- The fresh state `__init__` builds when nothing is loaded from Redis:
empty ring, empty index, empty node list.  The MD5 variant thus represents
the empty ring as an ordinary value. -/
def initialRingState : RingState := ⟨[], [], []⟩

/-- The virtual-slot key strings `"{owner}-{i}"` for `i ∈ [0, V)`. -/
def vkeys (node_id : String) (V : Nat) : List String :=
  (List.range V).map (fun i => node_id ++ "-" ++ toString i)

/-- Structural model of Python `list.sort()` on the `sorted_keys` list
(insertion sort; for `Nat` keys any ascending sort is the same function). -/
def insertSorted (x : Nat) : List Nat → List Nat
  | [] => [x]
  | y :: t => if x ≤ y then x :: y :: t else y :: insertSorted x t

def sortKeys (l : List Nat) : List Nat := l.foldr insertSorted []

/-- `ConsistentHashRing.add_node`: guarded on membership of the owner id,
then inserts `V` virtual slots and re-sorts the key index. -/
def add_node (hash : String → Nat) (V : Nat) (s : RingState) (node : Node) : RingState :=
  if node.id ∈ s.nodes.map (fun n => n.id) then s
  else
    let hs := (vkeys node.id V).map hash
    { ring := hs.foldl (fun r h => dset r h node.id) s.ring
      sorted_keys := sortKeys (s.sorted_keys ++ hs)
      nodes := s.nodes ++ [node] }

/-- One iteration of `remove_node`'s loop body: if the slot hash is present,
delete it from the ring and remove its first occurrence from `sorted_keys`
(`list.remove`, whose `ValueError` branch the source swallows). -/
def removeStep (h : Nat) (p : List (Nat × String) × List Nat) :
    List (Nat × String) × List Nat :=
  if dcontains p.1 h then (ddel p.1 h, p.2.erase h) else p

/-- `ConsistentHashRing.remove_node`. -/
def remove_node (hash : String → Nat) (V : Nat) (s : RingState) (node_id : String) :
    RingState :=
  let hs := (vkeys node_id V).map hash
  let p := hs.foldl (fun acc h => removeStep h acc) (s.ring, s.sorted_keys)
  { ring := p.1, sorted_keys := p.2,
    nodes := s.nodes.filter (fun n => n.id ≠ node_id) }

lemma dcontains_ddel_self {α β : Type} [DecidableEq α] (l : List (α × β)) (k : α) :
    dcontains (ddel l k) k = false := by
  by_contra hcon
  rw [Bool.not_eq_false, dcontains, List.any_eq_true] at hcon
  obtain ⟨p, hp, hk⟩ := hcon
  rw [ddel, List.mem_filter] at hp
  have h1 : p.1 ≠ k := by simpa using hp.2
  have h2 : p.1 = k := by simpa using hk
  exact h1 h2

lemma dcontains_removeStep_mono {h k : Nat} {p : List (Nat × String) × List Nat}
    (hc : dcontains (removeStep h p).1 k = true) : dcontains p.1 k = true := by
  unfold removeStep at hc
  by_cases hd : dcontains p.1 h
  · rw [if_pos hd] at hc
    simp only [dcontains, List.any_eq_true] at hc ⊢
    obtain ⟨a, ha, hk⟩ := hc
    exact ⟨a, List.mem_of_mem_filter ha, hk⟩
  · rw [if_neg hd] at hc
    exact hc

lemma removeStep_kills (h : Nat) (p : List (Nat × String) × List Nat) :
    dcontains (removeStep h p).1 h = false := by
  unfold removeStep
  by_cases hd : dcontains p.1 h
  · rw [if_pos hd]
    exact dcontains_ddel_self p.1 h
  · rw [if_neg hd]
    simp only [Bool.not_eq_true] at hd
    exact hd

lemma foldl_removeStep_mono (hs : List Nat) (p : List (Nat × String) × List Nat)
    (k : Nat)
    (hc : dcontains ((hs.foldl (fun acc h => removeStep h acc) p)).1 k = true) :
    dcontains p.1 k = true := by
  induction hs generalizing p with
  | nil => simpa using hc
  | cons h t ih =>
      simp only [List.foldl_cons] at hc
      exact dcontains_removeStep_mono (ih (removeStep h p) hc)

lemma foldl_removeStep_kills (hs : List Nat) (p : List (Nat × String) × List Nat) :
    ∀ h ∈ hs, dcontains ((hs.foldl (fun acc h => removeStep h acc) p)).1 h = false := by
  induction hs generalizing p with
  | nil => intro h hmem; cases hmem
  | cons h0 t ih =>
      intro h hmem
      rcases List.mem_cons.mp hmem with rfl | hmem
      · simp only [List.foldl_cons]
        by_contra hcon
        have h1 : dcontains ((t.foldl (fun acc h => removeStep h acc) (removeStep h p))).1 h
            = true := by
          cases hval : dcontains
              ((t.foldl (fun acc h => removeStep h acc) (removeStep h p))).1 h with
          | false => exact absurd hval hcon
          | true => rfl
        have := foldl_removeStep_mono t (removeStep h p) h h1
        have hk := removeStep_kills h p
        rw [hk] at this
        cases this
      · simp only [List.foldl_cons]
        exact ih (removeStep h0 p) h hmem

lemma foldl_removeStep_id (hs : List Nat) (p : List (Nat × String) × List Nat)
    (hnone : ∀ h ∈ hs, dcontains p.1 h = false) :
    hs.foldl (fun acc h => removeStep h acc) p = p := by
  induction hs with
  | nil => rfl
  | cons h t ih =>
      have hstep : removeStep h p = p := by
        unfold removeStep
        simp [hnone h (List.mem_cons_self h t)]
      simp only [List.foldl_cons, hstep]
      exact ih (fun x hx => hnone x (List.mem_cons_of_mem h hx))

/-- C6. Ring mutation is idempotent: a second `add_node` of the same node and
a second `remove_node` of the same owner (added or not) are no-ops on the
ring map, the sorted key index and the node list. -/
theorem claim_C6_ring_idempotence (hash : String → Nat) (V : Nat) (s : RingState)
    (node : Node) (node_id : String) :
    add_node hash V (add_node hash V s node) node = add_node hash V s node ∧
    remove_node hash V (remove_node hash V s node_id) node_id
      = remove_node hash V s node_id := by
  constructor
  · by_cases hmem : node.id ∈ s.nodes.map (fun n => n.id)
    · simp [add_node, hmem]
    · have h1 : add_node hash V s node =
        { ring := ((vkeys node.id V).map hash).foldl (fun r h => dset r h node.id) s.ring
          sorted_keys := sortKeys (s.sorted_keys ++ (vkeys node.id V).map hash)
          nodes := s.nodes ++ [node] } := by
        simp [add_node, hmem]
      have hmem2 : node.id ∈ (s.nodes ++ [node]).map (fun n => n.id) := by
        simp
      rw [h1]
      simp [add_node, hmem2]
  · unfold remove_node
    have hkill := foldl_removeStep_kills ((vkeys node_id V).map hash)
      (s.ring, s.sorted_keys)
    have hid := foldl_removeStep_id ((vkeys node_id V).map hash)
      (((vkeys node_id V).map hash).foldl (fun acc h => removeStep h acc)
        (s.ring, s.sorted_keys)) hkill
    simp only [hid]
    congr 1
    rw [List.filter_filter]
    congr 1
    funext n
    exact Bool.and_self _

/-- Resolve a slot hash to its owning node record: `ring[k]` followed by
`next((n for n in nodes if n.id == node_id), None)`.  A slot hash absent
from the ring map (a `KeyError` in the source) is modelled as `none`; the
well-formedness hypotheses of the theorems below exclude it. -/
def ownerNode (s : RingState) (k : Nat) : Option Node :=
  (dget? s.ring k).bind (fun nid => s.nodes.find? (fun n => n.id = nid))

/-- `ConsistentHashRing.get_node`: first slot in `sorted_keys` whose hash is
`≥ hash(key)`, wrapping to `sorted_keys[0]`. -/
def get_node (hash : String → Nat) (s : RingState) (key : String) : Option Node :=
  match s.sorted_keys with
  | [] => none
  | k0 :: _ =>
    let hv := hash key
    match s.sorted_keys.find? (fun k => hv ≤ k) with
    | some k => ownerNode s k
    | none => ownerNode s k0

/-- Loop body shared by the two passes of `get_nodes_for_key`: walk the given
slot hashes, look up each owner, skip owners already seen or absent from the
node list, and stop as soon as `rc` nodes are collected. -/
def scanKeys (ring : List (Nat × String)) (nodesList : List Node) (rc : Nat) :
    List Nat → List Node → List String → List Node × List String
  | [], acc, seen => (acc, seen)
  | k :: rest, acc, seen =>
    match dget? ring k with
    | none => scanKeys ring nodesList rc rest acc seen
    | some nid =>
      if nid ∈ seen then scanKeys ring nodesList rc rest acc seen
      else
        match nodesList.find? (fun n => n.id = nid) with
        | none => scanKeys ring nodesList rc rest acc seen
        | some node =>
          if rc ≤ (acc ++ [node]).length then (acc ++ [node], seen ++ [nid])
          else scanKeys ring nodesList rc rest (acc ++ [node]) (seen ++ [nid])

/-- First pass of `get_nodes_for_key`: walk the slots with hash `≥ hash(key)`. -/
def gnfkPass1 (hash : String → Nat) (s : RingState) (key : String) (rc : Nat) :
    List Node × List String :=
  scanKeys s.ring s.nodes rc (s.sorted_keys.filter (fun k => hash key ≤ k)) [] []

/-- Second pass of `get_nodes_for_key`: when the first pass found fewer than
`rc` nodes, wrap around over all slots. -/
def gnfkPass2 (hash : String → Nat) (s : RingState) (key : String) (rc : Nat) :
    List Node × List String :=
  if (gnfkPass1 hash s key rc).1.length < rc then
    scanKeys s.ring s.nodes rc s.sorted_keys
      (gnfkPass1 hash s key rc).1 (gnfkPass1 hash s key rc).2
  else gnfkPass1 hash s key rc

/-- `ConsistentHashRing.get_nodes_for_key`: the two passes above followed by
`nodes[:rc]`. -/
def get_nodes_for_key (hash : String → Nat) (s : RingState) (key : String) (rc : Nat) :
    List Node :=
  if s.sorted_keys = [] then []
  else (gnfkPass2 hash s key rc).1.take rc

/-- Minimum of a list of naturals, `none` on the empty list. -/
def minOf : List Nat → Option Nat
  | [] => none
  | a :: t =>
    match minOf t with
    | none => some a
    | some m => some (min a m)

/-- The slot-selection rule of C7 written from the spec's words: the chosen
slot is the minimum slot hash `≥ H(key)`; when no slot hash qualifies, the
lookup wraps to the overall minimum slot hash. -/
def specGet (hash : String → Nat) (s : RingState) (key : String) : Option Node :=
  if s.sorted_keys = [] then none
  else
    let hv := hash key
    match minOf (s.sorted_keys.filter (fun k => hv ≤ k)) with
    | some k => ownerNode s k
    | none =>
      match minOf s.sorted_keys with
      | some k => ownerNode s k
      | none => none

lemma minOf_mem {l : List Nat} {m : Nat} (h : minOf l = some m) : m ∈ l := by
  induction l generalizing m with
  | nil => cases h
  | cons a t ih =>
      unfold minOf at h
      cases ht : minOf t with
      | none =>
          rw [ht] at h
          injection h with h
          exact h ▸ List.mem_cons_self a t
      | some m0 =>
          rw [ht] at h
          injection h with h
          rcases Nat.le_total a m0 with hle | hle
          · have : m = a := by omega
            exact this ▸ List.mem_cons_self a t
          · have : m = m0 := by omega
            exact this ▸ List.mem_cons_of_mem a (ih ht)

lemma minOf_cons_of_le {a : Nat} {l : List Nat} (h : ∀ x ∈ l, a ≤ x) :
    minOf (a :: l) = some a := by
  unfold minOf
  cases ht : minOf l with
  | none => rfl
  | some m =>
      have hm := minOf_mem ht
      have := h m hm
      simp [Nat.min_eq_left this]

lemma find?_sorted_eq_minOf_filter (hv : Nat) {l : List Nat}
    (hs : l.Sorted (· ≤ ·)) :
    l.find? (fun k => hv ≤ k) = minOf (l.filter (fun k => hv ≤ k)) := by
  induction l with
  | nil => rfl
  | cons a t ih =>
      have hrest : t.Sorted (· ≤ ·) := (List.sorted_cons.mp hs).2
      have hmin : ∀ b ∈ t, a ≤ b := (List.sorted_cons.mp hs).1
      by_cases hcase : hv ≤ a
      · rw [List.find?_cons_of_pos _ (by simpa using hcase)]
        rw [List.filter_cons_of_pos (by simpa using hcase)]
        rw [minOf_cons_of_le]
        intro x hx
        exact hmin x (List.mem_of_mem_filter hx)
      · rw [List.find?_cons_of_neg _ (by simpa using hcase)]
        rw [List.filter_cons_of_neg (by simpa using hcase)]
        exact ih hrest

/-- C7. For a ring with a sorted key index, `get_node` selects the node
owning the smallest slot hash `≥ hash(key)`, wrapping to the smallest slot
hash when none qualifies (`specGet` states exactly this selection rule);
on the empty ring `get_node` answers `none` and `get_nodes_for_key` answers
`[]` for every replica count. -/
theorem claim_C7_get_node_selection (hash : String → Nat) (s : RingState) (key : String) :
    (s.sorted_keys = [] →
      get_node hash s key = none ∧ ∀ rc, get_nodes_for_key hash s key rc = []) ∧
    (s.sorted_keys.Sorted (· ≤ ·) → get_node hash s key = specGet hash s key) := by
  constructor
  · intro hempty
    constructor
    · unfold get_node
      rw [hempty]
    · intro rc
      unfold get_nodes_for_key
      rw [if_pos hempty]
  · intro hsorted
    unfold get_node specGet
    cases hsk : s.sorted_keys with
    | nil => rfl
    | cons k0 rest =>
        rw [if_neg (by simp [hsk])]
        rw [hsk] at hsorted
        have hfind := find?_sorted_eq_minOf_filter (hash key) hsorted
        rw [← hsk] at hfind
        rw [hsk] at hfind
        simp only [hsk]
        rw [hfind]
        cases hflt : minOf ((k0 :: rest).filter (fun k => hash key ≤ k)) with
        | some k => rfl
        | none =>
            have hmin0 : minOf (k0 :: rest) = some k0 :=
              minOf_cons_of_le (List.sorted_cons.mp hsorted).1
            rw [hmin0]

/-- Witness for C7 at a concrete sorted two-slot ring and at the empty ring. -/
theorem claim_C7_get_node_selection_witness :
    (get_node (fun str => str.length) initialRingState "k" = none ∧
      get_nodes_for_key (fun str => str.length) initialRingState "k" 2 = []) ∧
    get_node (fun str => str.length)
        ⟨[(3, "a"), (9, "b")], [3, 9], [⟨"a", "ua"⟩, ⟨"b", "ub"⟩]⟩ "k"
      = specGet (fun str => str.length)
        ⟨[(3, "a"), (9, "b")], [3, 9], [⟨"a", "ua"⟩, ⟨"b", "ub"⟩]⟩ "k" :=
  ⟨⟨((claim_C7_get_node_selection (fun str => str.length) initialRingState "k").1 rfl).1,
    ((claim_C7_get_node_selection (fun str => str.length) initialRingState "k").1 rfl).2 2⟩,
    (claim_C7_get_node_selection (fun str => str.length)
      ⟨[(3, "a"), (9, "b")], [3, 9], [⟨"a", "ua"⟩, ⟨"b", "ub"⟩]⟩ "k").2 (by decide)⟩

/-- The distinct owners recorded in the ring map. -/
def ringOwners (s : RingState) : List String := (s.ring.map (fun p => p.2)).dedup

/-- Consistency facts `add_node` / `remove_node` maintain and the C5/C7
theorems use: ring keys are unique, every ring entry's slot hash is indexed
in `sorted_keys`, and every ring owner resolves to a node record. -/
def Consistent (s : RingState) : Prop :=
  (s.ring.map (fun p => p.1)).Nodup ∧
  (∀ p ∈ s.ring, p.1 ∈ s.sorted_keys) ∧
  (∀ p ∈ s.ring, ∃ n ∈ s.nodes, n.id = p.2)

/-- `KetamaRouter` (src/utils/hashring/ketama.py): the id-keyed node map.
The libketama ring object itself is an external library (`uhashring`); its
key-dependent node iteration is passed to `ketama_get_n` as a `stream`. -/
structure Ketama where
  nodes_map : List (String × Node)
deriving DecidableEq, Repr

/-- `KetamaRouter.__init__`: keep nodes with a truthy `id` (last one wins per
id), and raise `ValueError` when none remain. -/
def ketamaInit (nodes : List Node) : Except String Ketama :=
  let m := nodes.foldl (fun acc n => if n.id ≠ "" then dset acc n.id n else acc) []
  if m = [] then Except.error "No valid nodes provided"
  else Except.ok ⟨m⟩

/-- The loop of `KetamaRouter.get_n`: walk the ring's node-id stream,
de-duplicate via `seen`, look each id up in `nodes_map`, and stop at `n`
selected nodes.  An id absent from `nodes_map` (a `KeyError` in the source)
is modelled as a skip and excluded by the theorems' hypotheses. -/
def ketamaLoop (m : List (String × Node)) (n : Nat) :
    List String → List Node → List String → List Node
  | [], sel, _ => sel
  | nid :: rest, sel, seen =>
    if nid ∈ seen then ketamaLoop m n rest sel seen
    else
      match dget? m nid with
      | none => ketamaLoop m n rest sel (nid :: seen)
      | some node =>
        if n ≤ (sel ++ [node]).length then sel ++ [node]
        else ketamaLoop m n rest (sel ++ [node]) (nid :: seen)

/-- `KetamaRouter.get_n`. -/
def ketama_get_n (r : Ketama) (stream : List String) (n : Nat) : List Node :=
  if n = 0 then [] else ketamaLoop r.nodes_map n stream [] []

lemma dget?_some_mem {α β : Type} [DecidableEq α] {l : List (α × β)} {k : α} {v : β}
    (h : dget? l k = some v) : ∃ p ∈ l, p.1 = k ∧ p.2 = v := by
  unfold dget? at h
  obtain ⟨p, hp1, hp2⟩ := Option.map_eq_some'.mp h
  refine ⟨p, List.mem_of_find?_eq_some hp1, ?_, hp2⟩
  simpa using List.find?_some hp1

lemma dget?_keys_nodup {α β : Type} [DecidableEq α] {l : List (α × β)}
    (hnd : (l.map (fun p => p.1)).Nodup) {p : α × β} (hp : p ∈ l) :
    dget? l p.1 = some p.2 := by
  induction l with
  | nil => cases hp
  | cons q t ih =>
      rcases List.mem_cons.mp hp with rfl | hp
      · unfold dget?
        rw [List.find?_cons_of_pos _ (by simp)]
        rfl
      · have hq : q.1 ≠ p.1 := by
          intro hcon
          have : q.1 ∈ t.map (fun p => p.1) := by
            rw [hcon]
            exact List.mem_map_of_mem _ hp
          exact (List.nodup_cons.mp hnd).1 this
        unfold dget?
        rw [List.find?_cons_of_neg _ (by simpa using hq)]
        exact ih (List.nodup_cons.mp hnd).2 hp

lemma nodup_subset_length {l l' : List String} (hnd : l.Nodup)
    (hsub : ∀ x ∈ l, x ∈ l') : l.length ≤ l'.dedup.length := by
  have h2 : l.toFinset ⊆ l'.toFinset := by
    intro x hx
    rw [List.mem_toFinset] at hx ⊢
    exact hsub x hx
  have h3 := Finset.card_le_card h2
  rw [List.card_toFinset, List.card_toFinset, hnd.dedup] at h3
  exact h3

lemma scanKeys_seen_eq (ring : List (Nat × String)) (nl : List Node) (rc : Nat)
    (keys : List Nat) (acc : List Node) (seen : List String)
    (hseen : seen = acc.map (fun n => n.id)) (hnd : seen.Nodup) :
    (scanKeys ring nl rc keys acc seen).2
        = (scanKeys ring nl rc keys acc seen).1.map (fun n => n.id) ∧
    (scanKeys ring nl rc keys acc seen).2.Nodup := by
  induction keys generalizing acc seen with
  | nil => exact ⟨hseen, hnd⟩
  | cons k rest ih =>
      cases hk : dget? ring k with
      | none =>
          rw [scanKeys, hk]
          exact ih acc seen hseen hnd
      | some nid =>
          rw [scanKeys, hk]
          dsimp only
          by_cases hmem : nid ∈ seen
          · rw [if_pos hmem]
            exact ih acc seen hseen hnd
          · rw [if_neg hmem]
            cases hf : nl.find? (fun n => n.id = nid) with
            | none => exact ih acc seen hseen hnd
            | some node =>
                dsimp only
                have hid : node.id = nid := by simpa using List.find?_some hf
                have hseen' : seen ++ [nid] = (acc ++ [node]).map (fun n => n.id) := by
                  simp [hseen, hid]
                have hnd' : (seen ++ [nid]).Nodup := by
                  rw [List.nodup_append]
                  refine ⟨hnd, List.nodup_singleton _, ?_⟩
                  intro x hx hx2
                  rw [List.mem_singleton] at hx2
                  subst hx2
                  exact hmem hx
                by_cases hb : rc ≤ (acc ++ [node]).length
                · rw [if_pos hb]
                  exact ⟨hseen', hnd'⟩
                · rw [if_neg hb]
                  exact ih _ _ hseen' hnd'

lemma scanKeys_acc_source (ring : List (Nat × String)) (nl : List Node) (rc : Nat)
    (keys : List Nat) (acc : List Node) (seen : List String) :
    ∀ x ∈ (scanKeys ring nl rc keys acc seen).1,
      x ∈ acc ∨ x.id ∈ ring.map (fun p => p.2) := by
  induction keys generalizing acc seen with
  | nil =>
      intro x hx
      exact Or.inl hx
  | cons k rest ih =>
      intro x hx
      cases hk : dget? ring k with
      | none =>
          rw [scanKeys, hk] at hx
          exact ih acc seen x hx
      | some nid =>
          have hnidmem : nid ∈ ring.map (fun p => p.2) := by
            obtain ⟨p, hp, _, hp2⟩ := dget?_some_mem hk
            exact hp2 ▸ List.mem_map_of_mem _ hp
          rw [scanKeys, hk] at hx
          dsimp only at hx
          by_cases hmem : nid ∈ seen
          · rw [if_pos hmem] at hx
            exact ih acc seen x hx
          · rw [if_neg hmem] at hx
            cases hf : nl.find? (fun n => n.id = nid) with
            | none =>
                rw [hf] at hx
                exact ih acc seen x hx
            | some node =>
                rw [hf] at hx
                dsimp only at hx
                have hid : node.id = nid := by simpa using List.find?_some hf
                by_cases hb : rc ≤ (acc ++ [node]).length
                · rw [if_pos hb] at hx
                  rcases List.mem_append.mp hx with hx | hx
                  · exact Or.inl hx
                  · rw [List.mem_singleton] at hx
                    subst hx
                    exact Or.inr (hid ▸ hnidmem)
                · rw [if_neg hb] at hx
                  rcases ih _ _ x hx with hx | hx
                  · rcases List.mem_append.mp hx with hx | hx
                    · exact Or.inl hx
                    · rw [List.mem_singleton] at hx
                      subst hx
                      exact Or.inr (hid ▸ hnidmem)
                  · exact Or.inr hx

lemma scanKeys_covers (ring : List (Nat × String)) (nl : List Node) (rc : Nat)
    (keys : List Nat) (acc : List Node) (seen : List String)
    (hres : ∀ nid ∈ ring.map (fun p => p.2), ∃ nd ∈ nl, nd.id = nid)
    (hseen : seen = acc.map (fun n => n.id)) (hnd : seen.Nodup)
    (hsub : ∀ x ∈ seen, x ∈ ring.map (fun p => p.2))
    (hcard : (ring.map (fun p => p.2)).dedup.length < rc) :
    ∀ x, x ∈ (scanKeys ring nl rc keys acc seen).2 ↔
      x ∈ seen ∨ ∃ k ∈ keys, dget? ring k = some x := by
  induction keys generalizing acc seen with
  | nil =>
      intro x
      rw [scanKeys]
      simp
  | cons k rest ih =>
      intro x
      cases hk : dget? ring k with
      | none =>
          rw [scanKeys, hk]
          rw [ih acc seen hseen hnd hsub x]
          constructor
          · rintro (h | ⟨k', hk', hkx⟩)
            · exact Or.inl h
            · exact Or.inr ⟨k', List.mem_cons_of_mem _ hk', hkx⟩
          · rintro (h | ⟨k', hk', hkx⟩)
            · exact Or.inl h
            · rcases List.mem_cons.mp hk' with rfl | hk'
              · rw [hk] at hkx
                cases hkx
              · exact Or.inr ⟨k', hk', hkx⟩
      | some nid =>
          rw [scanKeys, hk]
          dsimp only
          have hnidmem : nid ∈ ring.map (fun p => p.2) := by
            obtain ⟨p, hp, _, hp2⟩ := dget?_some_mem hk
            exact hp2 ▸ List.mem_map_of_mem _ hp
          by_cases hmem : nid ∈ seen
          · rw [if_pos hmem]
            rw [ih acc seen hseen hnd hsub x]
            constructor
            · rintro (h | ⟨k', hk', hkx⟩)
              · exact Or.inl h
              · exact Or.inr ⟨k', List.mem_cons_of_mem _ hk', hkx⟩
            · rintro (h | ⟨k', hk', hkx⟩)
              · exact Or.inl h
              · rcases List.mem_cons.mp hk' with rfl | hk'
                · rw [hk] at hkx
                  injection hkx with h2
                  exact Or.inl (h2 ▸ hmem)
                · exact Or.inr ⟨k', hk', hkx⟩
          · rw [if_neg hmem]
            obtain ⟨nd0, hnd0, hnd0id⟩ := hres nid hnidmem
            have hfs : (nl.find? (fun n => n.id = nid)).isSome := by
              rw [List.find?_isSome]
              exact ⟨nd0, hnd0, by simpa using hnd0id⟩
            cases hf : nl.find? (fun n => n.id = nid) with
            | none =>
                rw [hf] at hfs
                cases hfs
            | some node =>
                dsimp only
                have hid : node.id = nid := by simpa using List.find?_some hf
                have hseen' : seen ++ [nid] = (acc ++ [node]).map (fun n => n.id) := by
                  simp [hseen, hid]
                have hnd' : (seen ++ [nid]).Nodup := by
                  rw [List.nodup_append]
                  refine ⟨hnd, List.nodup_singleton _, ?_⟩
                  intro y hy hy2
                  rw [List.mem_singleton] at hy2
                  subst hy2
                  exact hmem hy
                have hsub' : ∀ y ∈ seen ++ [nid], y ∈ ring.map (fun p => p.2) := by
                  intro y hy
                  rcases List.mem_append.mp hy with hy | hy
                  · exact hsub y hy
                  · rw [List.mem_singleton] at hy
                    subst hy
                    exact hnidmem
                have hnb : ¬ rc ≤ (acc ++ [node]).length := by
                  have hb1 : (seen ++ [nid]).length ≤ (ring.map (fun p => p.2)).dedup.length :=
                    nodup_subset_length hnd' hsub'
                  have hb2 : (seen ++ [nid]).length = seen.length + 1 := by simp
                  have hb3 : seen.length = acc.length := by
                    rw [hseen]
                    simp
                  have hb4 : (acc ++ [node]).length = acc.length + 1 := by simp
                  omega
                rw [if_neg hnb]
                rw [ih (acc ++ [node]) (seen ++ [nid]) hseen' hnd' hsub' x]
                constructor
                · rintro (h | ⟨k', hk', hkx⟩)
                  · rcases List.mem_append.mp h with h | h
                    · exact Or.inl h
                    · rw [List.mem_singleton] at h
                      subst h
                      exact Or.inr ⟨k, List.mem_cons_self _ _, hk⟩
                  · exact Or.inr ⟨k', List.mem_cons_of_mem _ hk', hkx⟩
                · rintro (h | ⟨k', hk', hkx⟩)
                  · exact Or.inl (List.mem_append.mpr (Or.inl h))
                  · rcases List.mem_cons.mp hk' with rfl | hk'
                    · rw [hk] at hkx
                      injection hkx with h2
                      subst h2
                      exact Or.inl (List.mem_append.mpr (Or.inr (List.mem_singleton.mpr rfl)))
                    · exact Or.inr ⟨k', hk', hkx⟩

lemma dcontains_iff_isSome {α β : Type} [DecidableEq α] (l : List (α × β)) (k : α) :
    dcontains l k = true ↔ (dget? l k).isSome := by
  rw [dcontains, List.any_eq_true, dget?]
  constructor
  · rintro ⟨p, hp, hpk⟩
    have : (l.find? (fun p => p.1 = k)).isSome := by
      rw [List.find?_isSome]
      exact ⟨p, hp, hpk⟩
    cases hfind : l.find? (fun p => p.1 = k) with
    | none =>
        rw [hfind] at this
        cases this
    | some q => simp
  · intro h
    cases hfind : l.find? (fun p => p.1 = k) with
    | none =>
        rw [hfind] at h
        cases h
    | some q =>
        refine ⟨q, List.mem_of_find?_eq_some hfind, ?_⟩
        have hq := List.find?_some hfind
        simpa using hq

lemma ketamaLoop_basic (m : List (String × Node)) (n : Nat)
    (stream : List String) (sel : List Node) (seen : List String)
    (hmap : ∀ p ∈ m, p.2.id = p.1)
    (hnd : (sel.map (fun nd => nd.id)).Nodup)
    (hsub : ∀ x ∈ sel.map (fun nd => nd.id), x ∈ seen)
    (hsrc : ∀ x ∈ sel.map (fun nd => nd.id), x ∈ m.map (fun p => p.1))
    (hlen : sel.length < n) :
    ((ketamaLoop m n stream sel seen).map (fun nd => nd.id)).Nodup ∧
    (ketamaLoop m n stream sel seen).length ≤ n ∧
    ∀ x ∈ (ketamaLoop m n stream sel seen).map (fun nd => nd.id),
      x ∈ m.map (fun p => p.1) := by
  induction stream generalizing sel seen with
  | nil =>
      rw [ketamaLoop]
      exact ⟨hnd, Nat.le_of_lt hlen, hsrc⟩
  | cons nid rest ih =>
      rw [ketamaLoop]
      by_cases hmem : nid ∈ seen
      · rw [if_pos hmem]
        exact ih sel seen hnd hsub hsrc hlen
      · rw [if_neg hmem]
        cases hk : dget? m nid with
        | none =>
            exact ih sel (nid :: seen) hnd
              (fun x hx => List.mem_cons_of_mem _ (hsub x hx)) hsrc hlen
        | some node =>
            dsimp only
            have hid : node.id = nid := by
              obtain ⟨p, hp, hp1, hp2⟩ := dget?_some_mem hk
              rw [← hp1, ← hp2]
              exact hmap p hp
            have hkey : nid ∈ m.map (fun p => p.1) := by
              obtain ⟨p, hp, hp1, _⟩ := dget?_some_mem hk
              exact hp1 ▸ List.mem_map_of_mem _ hp
            have hnd' : ((sel ++ [node]).map (fun nd => nd.id)).Nodup := by
              rw [List.map_append, List.nodup_append]
              refine ⟨hnd, by simp, ?_⟩
              intro y hy hy2
              simp only [List.map_cons, List.map_nil, List.mem_singleton] at hy2
              subst hy2
              exact hmem (hid ▸ hsub _ hy)
            have hsub' : ∀ x ∈ (sel ++ [node]).map (fun nd => nd.id), x ∈ nid :: seen := by
              intro x hx
              rw [List.map_append] at hx
              rcases List.mem_append.mp hx with hx | hx
              · exact List.mem_cons_of_mem _ (hsub x hx)
              · simp only [List.map_cons, List.map_nil, List.mem_singleton] at hx
                subst hx
                rw [hid]
                exact List.mem_cons_self _ _
            have hsrc' : ∀ x ∈ (sel ++ [node]).map (fun nd => nd.id),
                x ∈ m.map (fun p => p.1) := by
              intro x hx
              rw [List.map_append] at hx
              rcases List.mem_append.mp hx with hx | hx
              · exact hsrc x hx
              · simp only [List.map_cons, List.map_nil, List.mem_singleton] at hx
                subst hx
                exact hid ▸ hkey
            by_cases hb : n ≤ (sel ++ [node]).length
            · rw [if_pos hb]
              refine ⟨hnd', ?_, hsrc'⟩
              have : (sel ++ [node]).length = sel.length + 1 := by simp
              omega
            · rw [if_neg hb]
              refine ih _ _ hnd' hsub' hsrc' ?_
              have : (sel ++ [node]).length = sel.length + 1 := by simp
              omega

lemma ketamaLoop_covers (m : List (String × Node)) (n : Nat)
    (stream : List String) (sel : List Node) (seen : List String)
    (hmap : ∀ p ∈ m, p.2.id = p.1)
    (hin : ∀ nid ∈ stream, dcontains m nid = true)
    (hseen : ∀ x, x ∈ seen ↔ x ∈ sel.map (fun nd => nd.id))
    (hnd : (sel.map (fun nd => nd.id)).Nodup)
    (hsrc : ∀ x ∈ sel.map (fun nd => nd.id), x ∈ m.map (fun p => p.1))
    (hcard : (m.map (fun p => p.1)).dedup.length < n) :
    ∀ x, x ∈ (ketamaLoop m n stream sel seen).map (fun nd => nd.id) ↔
      x ∈ sel.map (fun nd => nd.id) ∨ x ∈ stream := by
  induction stream generalizing sel seen with
  | nil =>
      intro x
      rw [ketamaLoop]
      simp
  | cons nid rest ih =>
      intro x
      rw [ketamaLoop]
      by_cases hmem : nid ∈ seen
      · rw [if_pos hmem]
        rw [ih sel seen (fun y hy => hin y (List.mem_cons_of_mem _ hy)) hseen hnd hsrc x]
        constructor
        · rintro (h | h)
          · exact Or.inl h
          · exact Or.inr (List.mem_cons_of_mem _ h)
        · rintro (h | h)
          · exact Or.inl h
          · rcases List.mem_cons.mp h with rfl | h
            · exact Or.inl ((hseen x).mp hmem)
            · exact Or.inr h
      · rw [if_neg hmem]
        have hdc : dcontains m nid = true := hin nid (List.mem_cons_self _ _)
        rw [dcontains_iff_isSome] at hdc
        cases hk : dget? m nid with
        | none =>
            rw [hk] at hdc
            cases hdc
        | some node =>
            dsimp only
            have hid : node.id = nid := by
              obtain ⟨p, hp, hp1, hp2⟩ := dget?_some_mem hk
              rw [← hp1, ← hp2]
              exact hmap p hp
            have hkey : nid ∈ m.map (fun p => p.1) := by
              obtain ⟨p, hp, hp1, _⟩ := dget?_some_mem hk
              exact hp1 ▸ List.mem_map_of_mem _ hp
            have hnd' : ((sel ++ [node]).map (fun nd => nd.id)).Nodup := by
              rw [List.map_append, List.nodup_append]
              refine ⟨hnd, by simp, ?_⟩
              intro y hy hy2
              simp only [List.map_cons, List.map_nil, List.mem_singleton] at hy2
              subst hy2
              exact hmem ((hseen _).mpr (hid ▸ hy))
            have hsrc' : ∀ y ∈ (sel ++ [node]).map (fun nd => nd.id),
                y ∈ m.map (fun p => p.1) := by
              intro y hy
              rw [List.map_append] at hy
              rcases List.mem_append.mp hy with hy | hy
              · exact hsrc y hy
              · simp only [List.map_cons, List.map_nil, List.mem_singleton] at hy
                subst hy
                exact hid ▸ hkey
            have hseen' : ∀ y, y ∈ nid :: seen ↔ y ∈ (sel ++ [node]).map (fun nd => nd.id) := by
              intro y
              rw [List.map_append, List.mem_append, List.mem_cons, hseen y]
              simp only [List.map_cons, List.map_nil, List.mem_singleton, hid]
              tauto
            have hnb : ¬ n ≤ (sel ++ [node]).length := by
              have hb1 : ((sel ++ [node]).map (fun nd => nd.id)).length
                  ≤ (m.map (fun p => p.1)).dedup.length :=
                nodup_subset_length hnd' hsrc'
              have hb2 : ((sel ++ [node]).map (fun nd => nd.id)).length
                  = (sel ++ [node]).length := by simp
              omega
            rw [if_neg hnb]
            rw [ih (sel ++ [node]) (nid :: seen)
              (fun y hy => hin y (List.mem_cons_of_mem _ hy)) hseen' hnd' hsrc' x]
            rw [List.map_append]
            simp only [List.map_cons, List.map_nil]
            constructor
            · rintro (h | h)
              · rcases List.mem_append.mp h with h | h
                · exact Or.inl h
                · rw [List.mem_singleton] at h
                  subst h
                  exact Or.inr (hid ▸ List.mem_cons_self _ _)
              · exact Or.inr (List.mem_cons_of_mem _ h)
            · rintro (h | h)
              · exact Or.inl (List.mem_append.mpr (Or.inl h))
              · rcases List.mem_cons.mp h with rfl | h
                · refine Or.inl (List.mem_append.mpr (Or.inr ?_))
                  rw [List.mem_singleton, hid]
                · exact Or.inr h

/-- C5. Both ring lookups return pairwise-distinct owners: the MD5 ring's
`get_nodes_for_key` returns at most `min(rc, |distinct ring owners|)` nodes
with no owner repeated, and on a consistent state with fewer than `rc`
distinct owners it returns all of them; the ketama router's `get_n`
(fed by the external uhashring iteration `stream`) likewise never repeats an
owner, returns at most `min(n, |distinct map keys|)` nodes, and returns every
owner when fewer than `n` exist and the stream covers the map. -/
theorem claim_C5_get_n_distinct_owners
    (hash : String → Nat) (s : RingState) (key : String) (rc : Nat)
    (r : Ketama) (stream : List String) (n : Nat) :
    (((get_nodes_for_key hash s key rc).map (fun nd => nd.id)).Nodup ∧
      (get_nodes_for_key hash s key rc).length ≤ rc ∧
      (get_nodes_for_key hash s key rc).length ≤ (ringOwners s).length ∧
      (Consistent s → (ringOwners s).length < rc →
        ∀ x, x ∈ (get_nodes_for_key hash s key rc).map (fun nd => nd.id) ↔
          x ∈ ringOwners s)) ∧
    ((∀ p ∈ r.nodes_map, p.2.id = p.1) →
      (((ketama_get_n r stream n).map (fun nd => nd.id)).Nodup ∧
        (ketama_get_n r stream n).length ≤ n ∧
        (ketama_get_n r stream n).length ≤ (r.nodes_map.map (fun p => p.1)).dedup.length ∧
        ((∀ nid ∈ stream, dcontains r.nodes_map nid = true) →
          (∀ p ∈ r.nodes_map, p.1 ∈ stream) →
          (r.nodes_map.map (fun p => p.1)).dedup.length < n →
          ∀ x, x ∈ (ketama_get_n r stream n).map (fun nd => nd.id) ↔
            x ∈ r.nodes_map.map (fun p => p.1)))) := by
  constructor
  · by_cases hempty : s.sorted_keys = []
    · have hresult : get_nodes_for_key hash s key rc = [] := by
        unfold get_nodes_for_key
        rw [if_pos hempty]
      rw [hresult]
      refine ⟨by simp, by simp, by simp, ?_⟩
      intro hcons hcard x
      have hring : s.ring = [] := by
        cases hr : s.ring with
        | nil => rfl
        | cons p t =>
            have hmem := hcons.2.1 p (by rw [hr]; exact List.mem_cons_self _ _)
            rw [hempty] at hmem
            cases hmem
      simp [ringOwners, hring]
    · have hresult : get_nodes_for_key hash s key rc
          = (gnfkPass2 hash s key rc).1.take rc := by
        unfold get_nodes_for_key
        rw [if_neg hempty]
      have h1 : (gnfkPass1 hash s key rc).2
            = (gnfkPass1 hash s key rc).1.map (fun nd => nd.id) ∧
          (gnfkPass1 hash s key rc).2.Nodup := by
        unfold gnfkPass1
        exact scanKeys_seen_eq _ _ _ _ _ _ (by simp) List.nodup_nil
      have h1src : ∀ x ∈ (gnfkPass1 hash s key rc).1,
          x.id ∈ s.ring.map (fun p => p.2) := by
        unfold gnfkPass1
        intro x hx
        rcases scanKeys_acc_source _ _ _ _ _ _ x hx with hx | hx
        · cases hx
        · exact hx
      have h2 : (gnfkPass2 hash s key rc).2
            = (gnfkPass2 hash s key rc).1.map (fun nd => nd.id) ∧
          (gnfkPass2 hash s key rc).2.Nodup := by
        unfold gnfkPass2
        by_cases hl : (gnfkPass1 hash s key rc).1.length < rc
        · rw [if_pos hl]
          exact scanKeys_seen_eq _ _ _ _ _ _ h1.1 h1.2
        · rw [if_neg hl]
          exact h1
      have h2src : ∀ x ∈ (gnfkPass2 hash s key rc).1,
          x.id ∈ s.ring.map (fun p => p.2) := by
        unfold gnfkPass2
        by_cases hl : (gnfkPass1 hash s key rc).1.length < rc
        · rw [if_pos hl]
          intro x hx
          rcases scanKeys_acc_source _ _ _ _ _ _ x hx with hx | hx
          · exact h1src x hx
          · exact hx
        · rw [if_neg hl]
          exact h1src
      have hnd2 : ((gnfkPass2 hash s key rc).1.map (fun nd => nd.id)).Nodup := by
        rw [← h2.1]
        exact h2.2
      have hndres : ((get_nodes_for_key hash s key rc).map (fun nd => nd.id)).Nodup := by
        rw [hresult]
        exact (List.Sublist.map _ (List.take_sublist _ _)).nodup hnd2
      have hsubres : ∀ x ∈ (get_nodes_for_key hash s key rc).map (fun nd => nd.id),
          x ∈ s.ring.map (fun p => p.2) := by
        rw [hresult]
        intro x hx
        rw [List.mem_map] at hx
        obtain ⟨nd, hnd3, rfl⟩ := hx
        exact h2src nd (List.take_subset _ _ hnd3)
      refine ⟨hndres, ?_, ?_, ?_⟩
      · rw [hresult, List.length_take]
        exact min_le_left _ _
      · have hlen2 := nodup_subset_length hndres hsubres
        rw [List.length_map] at hlen2
        exact hlen2
      · intro hcons hcard x
        have hres4 : ∀ nid ∈ s.ring.map (fun p => p.2), ∃ nd ∈ s.nodes, nd.id = nid := by
          intro nid hnid
          rw [List.mem_map] at hnid
          obtain ⟨p, hp, rfl⟩ := hnid
          exact hcons.2.2 p hp
        have hcard' : (s.ring.map (fun p => p.2)).dedup.length < rc := hcard
        have hc1 : ∀ y, y ∈ (gnfkPass1 hash s key rc).2 ↔
            ∃ k ∈ s.sorted_keys.filter (fun k => hash key ≤ k),
              dget? s.ring k = some y := by
          intro y
          unfold gnfkPass1
          rw [scanKeys_covers _ _ _ _ _ _ hres4 (by simp) List.nodup_nil
            (by simp) hcard' y]
          simp
        have hl1 : (gnfkPass1 hash s key rc).1.length < rc := by
          have ha : ((gnfkPass1 hash s key rc).1.map (fun nd => nd.id)).Nodup := by
            rw [← h1.1]
            exact h1.2
          have hb : ∀ x ∈ (gnfkPass1 hash s key rc).1.map (fun nd => nd.id),
              x ∈ s.ring.map (fun p => p.2) := by
            intro x hx
            rw [List.mem_map] at hx
            obtain ⟨nd, hnd4, rfl⟩ := hx
            exact h1src nd hnd4
          have hc := nodup_subset_length ha hb
          rw [List.length_map] at hc
          omega
        have hp2eq : gnfkPass2 hash s key rc
            = scanKeys s.ring s.nodes rc s.sorted_keys
                (gnfkPass1 hash s key rc).1 (gnfkPass1 hash s key rc).2 := by
          unfold gnfkPass2
          rw [if_pos hl1]
        have hsub1 : ∀ y ∈ (gnfkPass1 hash s key rc).2,
            y ∈ s.ring.map (fun p => p.2) := by
          intro y hy
          rw [h1.1, List.mem_map] at hy
          obtain ⟨nd, hnd4, rfl⟩ := hy
          exact h1src nd hnd4
        have hc2 : ∀ y, y ∈ (gnfkPass2 hash s key rc).2 ↔
            y ∈ (gnfkPass1 hash s key rc).2 ∨
              ∃ k ∈ s.sorted_keys, dget? s.ring k = some y := by
          intro y
          rw [hp2eq]
          exact scanKeys_covers _ _ _ _ _ _ hres4 h1.1 h1.2 hsub1 hcard' y
        have hl2 : (gnfkPass2 hash s key rc).1.length ≤ rc := by
          have hb : ∀ x ∈ (gnfkPass2 hash s key rc).1.map (fun nd => nd.id),
              x ∈ s.ring.map (fun p => p.2) := by
            intro x hx
            rw [List.mem_map] at hx
            obtain ⟨nd, hnd4, rfl⟩ := hx
            exact h2src nd hnd4
          have hc := nodup_subset_length hnd2 hb
          rw [List.length_map] at hc
          omega
        have htake : (gnfkPass2 hash s key rc).1.take rc = (gnfkPass2 hash s key rc).1 :=
          List.take_of_length_le hl2
        rw [hresult, htake, ← h2.1, hc2 x]
        constructor
        · rintro (h | ⟨k, hk, hkx⟩)
          · rw [hc1 x] at h
            obtain ⟨k, hk, hkx⟩ := h
            obtain ⟨p, hp, hp1, hp2⟩ := dget?_some_mem hkx
            subst hp2
            exact List.mem_dedup.mpr (List.mem_map_of_mem _ hp)
          · obtain ⟨p, hp, hp1, hp2⟩ := dget?_some_mem hkx
            subst hp2
            exact List.mem_dedup.mpr (List.mem_map_of_mem _ hp)
        · intro h
          have hx2 : x ∈ s.ring.map (fun p => p.2) := List.mem_dedup.mp h
          rw [List.mem_map] at hx2
          obtain ⟨p, hp, rfl⟩ := hx2
          exact Or.inr ⟨p.1, hcons.2.1 p hp, dget?_keys_nodup hcons.1 hp⟩
  · intro hmap
    unfold ketama_get_n
    by_cases hn : n = 0
    · rw [if_pos hn]
      refine ⟨by simp, by simp, by simp, ?_⟩
      intro hin hcov hcard x
      rw [hn] at hcard
      exact absurd hcard (Nat.not_lt_zero _)
    · rw [if_neg hn]
      have hpos : 0 < n := Nat.pos_of_ne_zero hn
      have hb := ketamaLoop_basic r.nodes_map n stream [] [] hmap (by simp) (by simp)
        (by simp) (by simpa using hpos)
      refine ⟨hb.1, hb.2.1, ?_, ?_⟩
      · have hc := nodup_subset_length hb.1 hb.2.2
        rw [List.length_map] at hc
        exact hc
      · intro hin hcov hcard x
        rw [ketamaLoop_covers r.nodes_map n stream [] [] hmap hin (by simp) (by simp)
          (by simp) hcard x]
        constructor
        · rintro (h | h)
          · simp at h
          · have hdc := hin x h
            rw [dcontains_iff_isSome] at hdc
            cases hk : dget? r.nodes_map x with
            | none =>
                rw [hk] at hdc
                cases hdc
            | some node =>
                obtain ⟨p, hp, hp1, _⟩ := dget?_some_mem hk
                exact hp1 ▸ List.mem_map_of_mem _ hp
        · intro h
          rw [List.mem_map] at h
          obtain ⟨p, hp, rfl⟩ := h
          exact Or.inr (hcov p hp)

/-- Witness for C5: the coverage conclusions evaluated on a concrete
two-owner MD5 ring (replica count 3) and a one-node ketama router. -/
theorem claim_C5_get_n_distinct_owners_witness :
    ("a" ∈ (get_nodes_for_key (fun str => str.length)
        ⟨[(3, "a"), (9, "b")], [3, 9], [⟨"a", "ua"⟩, ⟨"b", "ub"⟩]⟩ "k" 3).map
          (fun nd => nd.id) ↔
      "a" ∈ ringOwners ⟨[(3, "a"), (9, "b")], [3, 9], [⟨"a", "ua"⟩, ⟨"b", "ub"⟩]⟩) ∧
    ("a" ∈ (ketama_get_n ⟨[("a", ⟨"a", "ua"⟩)]⟩ ["a"] 2).map (fun nd => nd.id) ↔
      "a" ∈ (Ketama.nodes_map ⟨[("a", ⟨"a", "ua"⟩)]⟩).map (fun p => p.1)) :=
  ⟨((claim_C5_get_n_distinct_owners (fun str => str.length)
      ⟨[(3, "a"), (9, "b")], [3, 9], [⟨"a", "ua"⟩, ⟨"b", "ub"⟩]⟩ "k" 3
      ⟨[("a", ⟨"a", "ua"⟩)]⟩ ["a"] 2).1.2.2.2
      (by exact ⟨by decide, by decide, by decide⟩) (by decide)) "a",
   (((claim_C5_get_n_distinct_owners (fun str => str.length)
      ⟨[(3, "a"), (9, "b")], [3, 9], [⟨"a", "ua"⟩, ⟨"b", "ub"⟩]⟩ "k" 3
      ⟨[("a", ⟨"a", "ua"⟩)]⟩ ["a"] 2).2 (by decide)).2.2.2 (by decide) (by decide)
      (by decide)) "a"⟩

/-- The placement-record slice of the Redis KV store: the `offering:{id}`,
`node_offerings:{owner}` and `offering_node:{id}` key families. -/
structure KV where
  offerings : List (String × String)
  node_offerings : List (String × List String)
  offering_node : List (String × String)
deriving DecidableEq, Repr

/-- Redis `SADD`: add a member to the set at key `k`, creating the set when
the key is absent. -/
def sadd (m : List (String × List String)) (k v : String) : List (String × List String) :=
  if dcontains m k then
    m.map (fun e => if e.1 = k then (e.1, if v ∈ e.2 then e.2 else e.2 ++ [v]) else e)
  else m ++ [(k, [v])]

/-- Redis `SMEMBERS`: the members of the set at `k` (empty when absent). -/
def smembers (m : List (String × List String)) (k : String) : List String :=
  (dget? m k).getD []

lemma dget?_cons_pos {α β : Type} [DecidableEq α] {p : α × β} {t : List (α × β)} {k : α}
    (h : p.1 = k) : dget? (p :: t) k = some p.2 := by
  unfold dget?
  rw [List.find?_cons_of_pos _ (by simpa using h)]
  rfl

lemma dget?_cons_neg {α β : Type} [DecidableEq α] {p : α × β} {t : List (α × β)} {k : α}
    (h : ¬ p.1 = k) : dget? (p :: t) k = dget? t k := by
  unfold dget?
  rw [List.find?_cons_of_neg _ (by simpa using h)]

lemma dget?_append {α β : Type} [DecidableEq α] (l₁ l₂ : List (α × β)) (k : α) :
    dget? (l₁ ++ l₂) k = (dget? l₁ k).or (dget? l₂ k) := by
  unfold dget?
  rw [List.find?_append]
  cases l₁.find? (fun p => p.1 = k) <;> rfl

lemma dget?_sadd_map (m : List (String × List String)) (k k' v : String) :
    dget? (m.map (fun e =>
        if e.1 = k then (e.1, if v ∈ e.2 then e.2 else e.2 ++ [v]) else e)) k'
      = (dget? m k').map (fun s =>
          if k' = k then (if v ∈ s then s else s ++ [v]) else s) := by
  induction m with
  | nil => rfl
  | cons p t ih =>
      have hkey : (if p.1 = k then (p.1, if v ∈ p.2 then p.2 else p.2 ++ [v]) else p).1
          = p.1 := by
        by_cases hpk : p.1 = k
        · rw [if_pos hpk]
        · rw [if_neg hpk]
      by_cases hpk' : p.1 = k'
      · rw [List.map_cons, dget?_cons_pos (by rw [hkey]; exact hpk'),
          dget?_cons_pos hpk']
        by_cases hpk : p.1 = k
        · rw [if_pos hpk]
          simp only [Option.map_some', if_pos (show k' = k by rw [← hpk', hpk])]
        · rw [if_neg hpk]
          simp only [Option.map_some', if_neg (show ¬ k' = k by rw [← hpk']; exact hpk)]
      · rw [List.map_cons, dget?_cons_neg (by rw [hkey]; exact hpk'), ih,
          dget?_cons_neg hpk']

lemma smembers_sadd_self (m : List (String × List String)) (k v : String) :
    smembers (sadd m k v) k
      = if v ∈ smembers m k then smembers m k else smembers m k ++ [v] := by
  unfold sadd
  by_cases hc : dcontains m k
  · rw [if_pos hc]
    have hsome := (dcontains_iff_isSome m k).mp hc
    cases hm : dget? m k with
    | none =>
        rw [hm] at hsome
        cases hsome
    | some s0 =>
        rw [smembers, dget?_sadd_map, hm]
        simp only [Option.map_some', Option.getD_some, if_pos rfl]
        rw [smembers, hm]
        rfl
  · rw [if_neg hc]
    have hnone : dget? m k = none := by
      cases hm : dget? m k with
      | none => rfl
      | some s0 =>
          exfalso
          apply hc
          rw [dcontains_iff_isSome, hm]
          rfl
    rw [smembers, dget?_append, hnone, Option.none_or, dget?_cons_pos rfl]
    rw [smembers, hnone]
    simp

lemma smembers_sadd_other (m : List (String × List String)) (k v k' : String)
    (h : ¬ k' = k) : smembers (sadd m k v) k' = smembers m k' := by
  unfold sadd
  by_cases hc : dcontains m k
  · rw [if_pos hc, smembers, dget?_sadd_map]
    cases hm : dget? m k' with
    | none =>
        rw [smembers, hm]
        rfl
    | some s0 =>
        simp only [Option.map_some', if_neg h, Option.getD_some]
        rw [smembers, hm]
        rfl
  · rw [if_neg hc, smembers, dget?_append]
    have h2 : dget? [(k, [v])] k' = none := by
      rw [dget?_cons_neg (by simpa using fun hcon => h hcon.symm)]
      rfl
    rw [h2, Option.or_none, smembers]

lemma mem_smembers_sadd_self2 (m : List (String × List String)) (k v : String) :
    v ∈ smembers (sadd m k v) k := by
  rw [smembers_sadd_self]
  by_cases hv : v ∈ smembers m k
  · rw [if_pos hv]
    exact hv
  · rw [if_neg hv]
    exact List.mem_append.mpr (Or.inr (List.mem_singleton.mpr rfl))

lemma mem_smembers_sadd_mono (m : List (String × List String)) (k v k' x : String)
    (h : x ∈ smembers m k') : x ∈ smembers (sadd m k v) k' := by
  by_cases hk : k' = k
  · subst hk
    rw [smembers_sadd_self]
    by_cases hv : v ∈ smembers m k'
    · rw [if_pos hv]
      exact h
    · rw [if_neg hv]
      exact List.mem_append.mpr (Or.inl h)
  · rw [smembers_sadd_other _ _ _ _ hk]
    exact h

lemma dget?_ddel_other {α β : Type} [DecidableEq α] (m : List (α × β)) {k k' : α}
    (hne : k' ≠ k) : dget? (ddel m k') k = dget? m k := by
  induction m with
  | nil => rfl
  | cons p t ih =>
      by_cases hpk : p.1 = k'
      · rw [ddel, List.filter_cons_of_neg (by simpa using hpk), ← ddel, ih,
          dget?_cons_neg (by rw [hpk]; exact hne)]
      · rw [ddel, List.filter_cons_of_pos (by simpa using hpk), ← ddel]
        by_cases hp2 : p.1 = k
        · rw [dget?_cons_pos hp2, dget?_cons_pos hp2]
        · rw [dget?_cons_neg hp2, dget?_cons_neg hp2, ih]

lemma dget?_ddel_self {α β : Type} [DecidableEq α] (m : List (α × β)) (k : α) :
    dget? (ddel m k) k = none := by
  unfold dget?
  have hfind : (ddel m k).find? (fun p => p.1 = k) = none := by
    rw [List.find?_eq_none]
    intro p hp
    have hmem := List.of_mem_filter hp
    simpa using hmem
  rw [hfind]
  rfl

lemma smembers_ddel_self (m : List (String × List String)) (k : String) :
    smembers (ddel m k) k = [] := by
  rw [smembers, dget?_ddel_self]
  rfl

lemma smembers_ddel_other (m : List (String × List String)) {k k' : String}
    (hne : k' ≠ k) : smembers (ddel m k') k = smembers m k := by
  rw [smembers, dget?_ddel_other m hne, smembers]

lemma dget?_map_set {α β : Type} [DecidableEq α] (m : List (α × β)) (k k' : α) (v : β) :
    dget? (m.map (fun p => if p.1 = k then (k, v) else p)) k'
      = (dget? m k').map (fun w => if k' = k then v else w) := by
  induction m with
  | nil => rfl
  | cons p t ih =>
      by_cases hpk' : p.1 = k'
      · by_cases hpk : p.1 = k
        · have hkk' : k' = k := by rw [← hpk', hpk]
          rw [List.map_cons, if_pos hpk, dget?_cons_pos (by rw [hkk']),
            dget?_cons_pos hpk']
          simp only [Option.map_some', if_pos hkk']
        · have hkk' : ¬ k' = k := by
            rw [← hpk']
            exact hpk
          rw [List.map_cons, if_neg hpk, dget?_cons_pos hpk', dget?_cons_pos hpk']
          simp only [Option.map_some', if_neg hkk']
      · rw [List.map_cons]
        by_cases hpk : p.1 = k
        · have hne : ¬ k = k' := by
            rw [← hpk]
            exact hpk'
          rw [if_pos hpk, dget?_cons_neg hne, ih, dget?_cons_neg hpk']
        · rw [if_neg hpk, dget?_cons_neg hpk', ih, dget?_cons_neg hpk']

lemma dget?_dset_self {α β : Type} [DecidableEq α] (m : List (α × β)) (k : α) (v : β) :
    dget? (dset m k v) k = some v := by
  unfold dset
  by_cases hc : dcontains m k
  · rw [if_pos hc, dget?_map_set]
    have hsome := (dcontains_iff_isSome m k).mp hc
    cases hm : dget? m k with
    | none =>
        rw [hm] at hsome
        cases hsome
    | some w => simp
  · rw [if_neg hc, dget?_append]
    have hnone : dget? m k = none := by
      cases hm : dget? m k with
      | none => rfl
      | some w =>
          exfalso
          apply hc
          rw [dcontains_iff_isSome, hm]
          rfl
    rw [hnone, Option.none_or, dget?_cons_pos rfl]

lemma dget?_dset_other {α β : Type} [DecidableEq α] (m : List (α × β)) {k k' : α} (v : β)
    (h : ¬ k' = k) : dget? (dset m k v) k' = dget? m k' := by
  unfold dset
  by_cases hc : dcontains m k
  · rw [if_pos hc, dget?_map_set]
    cases hm : dget? m k' with
    | none => rfl
    | some w => simp [h]
  · rw [if_neg hc, dget?_append]
    have h2 : dget? [(k, v)] k' = none := by
      rw [dget?_cons_neg (by simpa using fun hcon => h hcon.symm)]
      rfl
    rw [h2, Option.or_none]

/-- Per-offering body of the `redistribute_offerings` loop: look up the
payload under `offering:{id}`; when present, compute the new targets
(replica count 2) and POST to each; a successful POST records the offering
on the new node (`sadd`) and deletes the `offering:{id}` key. -/
def redistributeOne (hash : String → Nat) (s : RingState)
    (post : String → String → Bool) (kv : KV) (offering_id : String) : KV :=
  match dget? kv.offerings offering_id with
  | none => kv
  | some _ =>
    (get_nodes_for_key hash s offering_id 2).foldl (fun acc node =>
      if post node.id offering_id then
        { acc with
          node_offerings := sadd acc.node_offerings node.id offering_id
          offerings := ddel acc.offerings offering_id }
      else acc) kv

/-- `ConsistentHashRing.redistribute_offerings`: iterate the snapshot of
`node_offerings:{failed}`, redistribute each offering (with `post` the
outcome oracle of the POST to a node's `/manager`), then delete the
`node_offerings:{failed}` key unconditionally. -/
def redistribute_offerings (hash : String → Nat) (s : RingState)
    (post : String → String → Bool) (kv : KV) (failed_node_id : String) : KV :=
  let kv1 := (smembers kv.node_offerings failed_node_id).foldl
    (fun acc oid => redistributeOne hash s post acc oid) kv
  { kv1 with node_offerings := ddel kv1.node_offerings failed_node_id }

lemma redInnerFold_mono (post : String → String → Bool) (oid : String)
    (nodes : List Node) (kv : KV) (k x : String)
    (h : x ∈ smembers kv.node_offerings k) :
    x ∈ smembers ((nodes.foldl (fun acc node =>
      if post node.id oid then
        { acc with
          node_offerings := sadd acc.node_offerings node.id oid
          offerings := ddel acc.offerings oid }
      else acc) kv)).node_offerings k := by
  induction nodes generalizing kv with
  | nil => exact h
  | cons nd rest ih =>
      rw [List.foldl_cons]
      by_cases hp : post nd.id oid
      · rw [if_pos hp]
        exact ih _ (mem_smembers_sadd_mono _ _ _ _ _ h)
      · rw [if_neg hp]
        exact ih _ h

lemma redInnerFold_mem (post : String → String → Bool) (oid : String)
    (nodes : List Node) (kv : KV) :
    ∀ tn ∈ nodes, post tn.id oid = true →
      oid ∈ smembers ((nodes.foldl (fun acc node =>
        if post node.id oid then
          { acc with
            node_offerings := sadd acc.node_offerings node.id oid
            offerings := ddel acc.offerings oid }
        else acc) kv)).node_offerings tn.id := by
  induction nodes generalizing kv with
  | nil =>
      intro tn htn
      cases htn
  | cons nd rest ih =>
      intro tn htn hpost
      rw [List.foldl_cons]
      rcases List.mem_cons.mp htn with rfl | htn
      · rw [if_pos hpost]
        exact redInnerFold_mono post oid rest _ tn.id oid
          (mem_smembers_sadd_self2 _ _ _)
      · by_cases hp : post nd.id oid
        · rw [if_pos hp]
          exact ih _ tn htn hpost
        · rw [if_neg hp]
          exact ih _ tn htn hpost

lemma redistributeOne_mem (hash : String → Nat) (s : RingState)
    (post : String → String → Bool) (kv : KV) (oid : String)
    (hsome : (dget? kv.offerings oid).isSome = true) :
    ∀ tn ∈ get_nodes_for_key hash s oid 2, post tn.id oid = true →
      oid ∈ smembers (redistributeOne hash s post kv oid).node_offerings tn.id := by
  unfold redistributeOne
  cases hm : dget? kv.offerings oid with
  | none =>
      rw [hm] at hsome
      cases hsome
  | some payload =>
      dsimp only
      exact redInnerFold_mem post oid _ kv

lemma redistributeOne_mono (hash : String → Nat) (s : RingState)
    (post : String → String → Bool) (kv : KV) (oid k x : String)
    (h : x ∈ smembers kv.node_offerings k) :
    x ∈ smembers (redistributeOne hash s post kv oid).node_offerings k := by
  unfold redistributeOne
  cases dget? kv.offerings oid with
  | none => exact h
  | some payload =>
      dsimp only
      exact redInnerFold_mono post oid _ kv k x h

lemma redistributeOne_offerings_other (hash : String → Nat) (s : RingState)
    (post : String → String → Bool) (kv : KV) {oid oid2 : String}
    (hne : oid2 ≠ oid) :
    dget? (redistributeOne hash s post kv oid2).offerings oid
      = dget? kv.offerings oid := by
  unfold redistributeOne
  cases dget? kv.offerings oid2 with
  | none => rfl
  | some payload =>
      dsimp only
      generalize get_nodes_for_key hash s oid2 2 = nodes
      induction nodes generalizing kv with
      | nil => rfl
      | cons nd rest ih =>
          rw [List.foldl_cons]
          by_cases hp : post nd.id oid2
          · rw [if_pos hp, ih]
            exact dget?_ddel_other _ hne
          · rw [if_neg hp, ih]

lemma redistributeFold_mono (hash : String → Nat) (s : RingState)
    (post : String → String → Bool) (offs : List String) (kv : KV) (k x : String)
    (h : x ∈ smembers kv.node_offerings k) :
    x ∈ smembers ((offs.foldl
      (fun acc oid => redistributeOne hash s post acc oid) kv)).node_offerings k := by
  induction offs generalizing kv with
  | nil => exact h
  | cons o rest ih =>
      rw [List.foldl_cons]
      exact ih _ (redistributeOne_mono hash s post kv o k x h)

lemma redistributeFold_mem (hash : String → Nat) (s : RingState)
    (post : String → String → Bool) (offs : List String) (kv : KV) (oid : String)
    (hmem : oid ∈ offs) (hsome : (dget? kv.offerings oid).isSome = true) :
    ∀ tn ∈ get_nodes_for_key hash s oid 2, post tn.id oid = true →
      oid ∈ smembers ((offs.foldl
        (fun acc oid => redistributeOne hash s post acc oid) kv)).node_offerings tn.id := by
  induction offs generalizing kv with
  | nil => cases hmem
  | cons o rest ih =>
      intro tn htn hpost
      rw [List.foldl_cons]
      rcases List.mem_cons.mp hmem with rfl | hmem2
      · exact redistributeFold_mono hash s post rest _ tn.id oid
          (redistributeOne_mem hash s post kv oid hsome tn htn hpost)
      · by_cases hs2 : (dget? (redistributeOne hash s post kv o).offerings oid).isSome
        · exact ih _ hmem2 hs2 tn htn hpost
        · have hoeq : o = oid := by
            by_contra hne
            apply hs2
            rw [redistributeOne_offerings_other hash s post kv hne]
            exact hsome
          subst hoeq
          exact redistributeFold_mono hash s post rest _ tn.id o
            (redistributeOne_mem hash s post kv o hsome tn htn hpost)

/-- C1 as stated is false on the code: with one offering whose only POST
fails, `redistribute_offerings` still deletes `node_offerings:{dead}`, so
the id is neither recorded on a new node nor left pending. -/
theorem claim_C1_counterexample :
    ¬ (∀ oid ∈ smembers
        (KV.node_offerings ⟨[("o1", "pl")], [("dead", ["o1"])], []⟩) "dead",
      (∃ e ∈ (redistribute_offerings (fun str => str.length)
          ⟨[(5, "n1")], [5], [⟨"n1", "u"⟩]⟩ (fun _ _ => false)
          ⟨[("o1", "pl")], [("dead", ["o1"])], []⟩ "dead").node_offerings,
        oid ∈ e.2) ∨
      oid ∈ smembers (redistribute_offerings (fun str => str.length)
          ⟨[(5, "n1")], [5], [⟨"n1", "u"⟩]⟩ (fun _ _ => false)
          ⟨[("o1", "pl")], [("dead", ["o1"])], []⟩ "dead").node_offerings "dead") := by
  decide

/-- C1 amended: `redistribute_offerings` deletes `node_offerings:{failed}`
unconditionally, so no id stays pending there; an id from the failed set
whose payload is present is recorded on every computed target whose POST
succeeded, while an id all of whose POSTs failed is simply dropped from the
tracking sets (as the counterexample shows). -/
theorem claim_C1_redistribution_records (hash : String → Nat) (s : RingState)
    (post : String → String → Bool) (kv : KV) (failed : String) :
    smembers (redistribute_offerings hash s post kv failed).node_offerings failed = [] ∧
    (∀ oid ∈ smembers kv.node_offerings failed,
      (dget? kv.offerings oid).isSome = true →
      ∀ tn ∈ get_nodes_for_key hash s oid 2,
        post tn.id oid = true → tn.id ≠ failed →
        oid ∈ smembers
          (redistribute_offerings hash s post kv failed).node_offerings tn.id) := by
  constructor
  · unfold redistribute_offerings
    exact smembers_ddel_self _ _
  · intro oid hmem hsome tn htn hpost hne
    unfold redistribute_offerings
    dsimp only
    rw [smembers_ddel_other _ (Ne.symm hne)]
    exact redistributeFold_mem hash s post _ kv oid hmem hsome tn htn hpost

/-- Witness for the amended C1 at a one-node ring whose POST succeeds. -/
theorem claim_C1_redistribution_records_witness :
    smembers (redistribute_offerings (fun str => str.length)
        ⟨[(5, "n1")], [5], [⟨"n1", "u"⟩]⟩ (fun _ _ => true)
        ⟨[("o1", "pl")], [("dead", ["o1"])], []⟩ "dead").node_offerings "dead" = [] ∧
    "o1" ∈ smembers (redistribute_offerings (fun str => str.length)
        ⟨[(5, "n1")], [5], [⟨"n1", "u"⟩]⟩ (fun _ _ => true)
        ⟨[("o1", "pl")], [("dead", ["o1"])], []⟩ "dead").node_offerings "n1" :=
  ⟨(claim_C1_redistribution_records (fun str => str.length)
      ⟨[(5, "n1")], [5], [⟨"n1", "u"⟩]⟩ (fun _ _ => true)
      ⟨[("o1", "pl")], [("dead", ["o1"])], []⟩ "dead").1,
   (claim_C1_redistribution_records (fun str => str.length)
      ⟨[(5, "n1")], [5], [⟨"n1", "u"⟩]⟩ (fun _ _ => true)
      ⟨[("o1", "pl")], [("dead", ["o1"])], []⟩ "dead").2 "o1" (by decide) (by decide)
      ⟨"n1", "u"⟩ (by decide) (by decide) (by decide)⟩

/-- `OfferingProcessor._update_offering_assignment`: the three Redis writes
(the retry loop is over a Redis backend modelled as reachable, so a single
pass performs them). -/
def update_offering_assignment (kv : KV) (offering_id node_id payload : String) : KV :=
  { offerings := dset kv.offerings offering_id payload
    node_offerings := sadd kv.node_offerings node_id offering_id
    offering_node := dset kv.offering_node offering_id node_id }

/-- `OfferingProcessor.process_offering`: `fetched` is the outcome of the
`descriptionUri` fetch (`none` models a missing uri or a failed fetch),
`post` whether the POST to a node's `/manager` succeeds; each success runs
`_update_offering_assignment`; the call succeeds iff some store landed. -/
def process_offering (hash : String → Nat) (s : RingState) (rc : Nat)
    (post : String → Bool) (kv : KV) (offering_id : String)
    (fetched : Option String) : Bool × KV :=
  match fetched with
  | none => (false, kv)
  | some payload =>
    if get_nodes_for_key hash s offering_id rc = [] then (false, kv)
    else
      let res := (get_nodes_for_key hash s offering_id rc).foldl
        (fun (p : Nat × KV) tn =>
          if post tn.id then
            (p.1 + 1, update_offering_assignment p.2 offering_id tn.id payload)
          else p) (0, kv)
      (decide (0 < res.1), res.2)

lemma processFold_count (post : String → Bool) (oid payload : String)
    (targets : List Node) (c : Nat) (kv : KV) :
    ((targets.foldl (fun (p : Nat × KV) tn =>
        if post tn.id then
          (p.1 + 1, update_offering_assignment p.2 oid tn.id payload)
        else p) (c, kv))).1
      = c + (targets.filter (fun tn => post tn.id)).length := by
  induction targets generalizing c kv with
  | nil => simp
  | cons tn rest ih =>
      rw [List.foldl_cons]
      by_cases hp : post tn.id
      · rw [if_pos hp, List.filter_cons_of_pos (by simpa using hp), ih]
        simp only [List.length_cons]
        omega
      · rw [if_neg hp, List.filter_cons_of_neg (by simpa using hp), ih]

lemma processFold_mono (post : String → Bool) (oid payload : String)
    (targets : List Node) (c : Nat) (kv : KV) (k x : String)
    (h : x ∈ smembers kv.node_offerings k) :
    x ∈ smembers ((targets.foldl (fun (p : Nat × KV) tn =>
      if post tn.id then
        (p.1 + 1, update_offering_assignment p.2 oid tn.id payload)
      else p) (c, kv))).2.node_offerings k := by
  induction targets generalizing c kv with
  | nil => exact h
  | cons nd rest ih =>
      rw [List.foldl_cons]
      by_cases hp : post nd.id
      · rw [if_pos hp]
        exact ih _ _ (mem_smembers_sadd_mono _ _ _ _ _ h)
      · rw [if_neg hp]
        exact ih _ _ h

lemma processFold_mem (post : String → Bool) (oid payload : String)
    (targets : List Node) (c : Nat) (kv : KV) :
    ∀ tn ∈ targets, post tn.id = true →
      oid ∈ smembers ((targets.foldl (fun (p : Nat × KV) tn =>
        if post tn.id then
          (p.1 + 1, update_offering_assignment p.2 oid tn.id payload)
        else p) (c, kv))).2.node_offerings tn.id := by
  induction targets generalizing c kv with
  | nil =>
      intro tn htn
      cases htn
  | cons nd rest ih =>
      intro tn htn hpost
      rw [List.foldl_cons]
      rcases List.mem_cons.mp htn with rfl | htn
      · rw [if_pos hpost]
        exact processFold_mono post oid payload rest _ _ tn.id oid
          (mem_smembers_sadd_self2 _ _ _)
      · by_cases hp : post nd.id
        · rw [if_pos hp]
          exact ih _ _ tn htn hpost
        · rw [if_neg hp]
          exact ih _ _ tn htn hpost

lemma processFold_onode (post : String → Bool) (oid payload : String)
    (targets : List Node) (c : Nat) (kv : KV) :
    (targets.filter (fun tn => post tn.id) = [] →
      (targets.foldl (fun (p : Nat × KV) tn =>
        if post tn.id then
          (p.1 + 1, update_offering_assignment p.2 oid tn.id payload)
        else p) (c, kv)) = (c, kv)) ∧
    (∀ last, (targets.filter (fun tn => post tn.id)).getLast? = some last →
      dget? ((targets.foldl (fun (p : Nat × KV) tn =>
        if post tn.id then
          (p.1 + 1, update_offering_assignment p.2 oid tn.id payload)
        else p) (c, kv))).2.offering_node oid = some last.id) := by
  induction targets generalizing c kv with
  | nil =>
      constructor
      · intro _
        rfl
      · intro last hlast
        cases hlast
  | cons nd rest ih =>
      by_cases hp : post nd.id
      · constructor
        · intro hnil
          rw [List.filter_cons_of_pos (by simpa using hp)] at hnil
          cases hnil
        · intro last hlast
          rw [List.filter_cons_of_pos (by simpa using hp)] at hlast
          rw [List.foldl_cons, if_pos hp]
          cases hrest : rest.filter (fun tn => post tn.id) with
          | nil =>
              rw [hrest, List.getLast?_singleton] at hlast
              injection hlast with hlast
              subst hlast
              rw [(ih _ _).1 hrest]
              exact dget?_dset_self _ _ _
          | cons x xs =>
              rw [hrest, List.getLast?_cons_cons] at hlast
              rw [← hrest] at hlast
              exact (ih _ _).2 last hlast
      · constructor
        · intro hnil
          rw [List.filter_cons_of_neg (by simpa using hp)] at hnil
          rw [List.foldl_cons, if_neg hp]
          exact (ih _ _).1 hnil
        · intro last hlast
          rw [List.filter_cons_of_neg (by simpa using hp)] at hlast
          rw [List.foldl_cons, if_neg hp]
          exact (ih _ _).2 last hlast

lemma processFold_offerings (post : String → Bool) (oid payload : String)
    (targets : List Node) (c : Nat) (kv : KV)
    (hstored : targets.filter (fun tn => post tn.id) ≠ []) :
    dget? ((targets.foldl (fun (p : Nat × KV) tn =>
      if post tn.id then
        (p.1 + 1, update_offering_assignment p.2 oid tn.id payload)
      else p) (c, kv))).2.offerings oid = some payload := by
  induction targets generalizing c kv with
  | nil =>
      exact absurd rfl hstored
  | cons nd rest ih =>
      rw [List.foldl_cons]
      by_cases hp : post nd.id
      · rw [if_pos hp]
        by_cases hrest : rest.filter (fun tn => post tn.id) = []
        · rw [(processFold_onode post oid payload rest _ _).1 hrest]
          exact dget?_dset_self _ _ _
        · exact ih _ _ hrest
      · rw [if_neg hp]
        apply ih c kv
        intro hcon
        apply hstored
        rw [List.filter_cons_of_neg (by simpa using hp), hcon]

/-- C2 as stated is false on the code: with the default two replicas and two
successful stores, `offering_node:{id}` holds only the last stored node, so
it cannot equal both targets. -/
theorem claim_C2_counterexample :
    ¬ (∀ tn ∈ (get_nodes_for_key (fun str => str.length)
          ⟨[(3, "a"), (9, "b")], [3, 9], [⟨"a", "ua"⟩, ⟨"b", "ub"⟩]⟩ "x" 2).filter
            (fun tn => (fun _ => true) tn.id),
        dget? (process_offering (fun str => str.length)
            ⟨[(3, "a"), (9, "b")], [3, 9], [⟨"a", "ua"⟩, ⟨"b", "ub"⟩]⟩ 2
            (fun _ => true) ⟨[], [], []⟩ "x" (some "pl")).2.offering_node "x"
          = some tn.id ∧
        "x" ∈ smembers (process_offering (fun str => str.length)
            ⟨[(3, "a"), (9, "b")], [3, 9], [⟨"a", "ua"⟩, ⟨"b", "ub"⟩]⟩ 2
            (fun _ => true) ⟨[], [], []⟩ "x" (some "pl")).2.node_offerings tn.id) := by
  decide

/-- C2 amended: after `process_offering` with at least one successful store,
the call returns `true`, the id is a member of `node_offerings:{n}` for
every target `n` whose POST succeeded, `offering:{id}` holds the fetched
payload, and `offering_node:{id}` names the LAST successfully stored target
(not each of them). -/
theorem claim_C2_placement_records (hash : String → Nat) (s : RingState) (rc : Nat)
    (post : String → Bool) (kv : KV) (oid payload : String)
    (hstored : (get_nodes_for_key hash s oid rc).filter (fun tn => post tn.id) ≠ []) :
    (process_offering hash s rc post kv oid (some payload)).1 = true ∧
    (∀ tn ∈ (get_nodes_for_key hash s oid rc).filter (fun tn => post tn.id),
      oid ∈ smembers
        (process_offering hash s rc post kv oid (some payload)).2.node_offerings tn.id) ∧
    dget? (process_offering hash s rc post kv oid (some payload)).2.offerings oid
      = some payload ∧
    (∃ last, ((get_nodes_for_key hash s oid rc).filter (fun tn => post tn.id)).getLast?
        = some last ∧
      dget? (process_offering hash s rc post kv oid (some payload)).2.offering_node oid
        = some last.id) := by
  have htne : get_nodes_for_key hash s oid rc ≠ [] := by
    intro hcon
    apply hstored
    rw [hcon]
    rfl
  unfold process_offering
  dsimp only
  rw [if_neg htne]
  refine ⟨?_, ?_, ?_, ?_⟩
  · rw [processFold_count]
    have hpos : 0 < ((get_nodes_for_key hash s oid rc).filter
        (fun tn => post tn.id)).length :=
      List.length_pos.mpr hstored
    simpa using hpos
  · intro tn htn
    have hmem := List.mem_filter.mp htn
    exact processFold_mem post oid payload _ 0 kv tn hmem.1 (by simpa using hmem.2)
  · exact processFold_offerings post oid payload _ 0 kv hstored
  · cases hlast : ((get_nodes_for_key hash s oid rc).filter
        (fun tn => post tn.id)).getLast? with
    | none =>
        exfalso
        apply hstored
        exact List.getLast?_eq_none_iff.mp hlast
    | some last =>
        exact ⟨last, rfl, (processFold_onode post oid payload _ 0 kv).2 last hlast⟩

/-- Witness for the amended C2 on a two-node ring with both POSTs
succeeding: the call reports success, the id is recorded under target `a`,
and `offering:{x}` holds the fetched payload. -/
theorem claim_C2_placement_records_witness :
    (process_offering (fun str => str.length)
        ⟨[(3, "a"), (9, "b")], [3, 9], [⟨"a", "ua"⟩, ⟨"b", "ub"⟩]⟩ 2
        (fun _ => true) ⟨[], [], []⟩ "x" (some "pl")).1 = true ∧
    "x" ∈ smembers (process_offering (fun str => str.length)
        ⟨[(3, "a"), (9, "b")], [3, 9], [⟨"a", "ua"⟩, ⟨"b", "ub"⟩]⟩ 2
        (fun _ => true) ⟨[], [], []⟩ "x" (some "pl")).2.node_offerings "a" ∧
    dget? (process_offering (fun str => str.length)
        ⟨[(3, "a"), (9, "b")], [3, 9], [⟨"a", "ua"⟩, ⟨"b", "ub"⟩]⟩ 2
        (fun _ => true) ⟨[], [], []⟩ "x" (some "pl")).2.offerings "x" = some "pl" :=
  ⟨(claim_C2_placement_records (fun str => str.length)
      ⟨[(3, "a"), (9, "b")], [3, 9], [⟨"a", "ua"⟩, ⟨"b", "ub"⟩]⟩ 2
      (fun _ => true) ⟨[], [], []⟩ "x" "pl" (by decide)).1,
   (claim_C2_placement_records (fun str => str.length)
      ⟨[(3, "a"), (9, "b")], [3, 9], [⟨"a", "ua"⟩, ⟨"b", "ub"⟩]⟩ 2
      (fun _ => true) ⟨[], [], []⟩ "x" "pl" (by decide)).2.1 ⟨"a", "ua"⟩ (by decide),
   (claim_C2_placement_records (fun str => str.length)
      ⟨[(3, "a"), (9, "b")], [3, 9], [⟨"a", "ua"⟩, ⟨"b", "ub"⟩]⟩ 2
      (fun _ => true) ⟨[], [], []⟩ "x" "pl" (by decide)).2.2.1⟩

/-- Per-node, per-cycle body of `NodeHealthChecker.get_healthy_nodes`: given
the recorded first-failure time (`fail0`, the `node_failures` entry), the
cycle's clock `t` and the probe outcome `up`, return the new failure record,
whether the node was kept in the healthy list, and whether the death
transition (mark unhealthy, redistribute offerings, remove from ring) was
performed this cycle. -/
def checkNode (grace : Nat) (fail0 : Option Nat) (t : Nat) (up : Bool) :
    Option Nat × Bool × Bool :=
  if up then (none, true, false)
  else
    let ft := fail0.getD t
    if grace ≤ t - ft then (some ft, false, true)
    else (some ft, true, false)

/-- Run successive check cycles for one node: `cycles` lists each cycle's
(clock, probe outcome); returns the final failure record and the per-cycle
(kept-healthy?, death-transition-performed?) log. -/
def runChecks (grace : Nat) (fail0 : Option Nat) :
    List (Nat × Bool) → Option Nat × List (Bool × Bool)
  | [] => (fail0, [])
  | (t, up) :: rest =>
    ((runChecks grace (checkNode grace fail0 t up).1 rest).1,
      ((checkNode grace fail0 t up).2.1, (checkNode grace fail0 t up).2.2)
        :: (runChecks grace (checkNode grace fail0 t up).1 rest).2)

lemma runChecks_failing (grace t0 : Nat) :
    ∀ cycles : List (Nat × Bool), (∀ c ∈ cycles, c.2 = false) →
      (runChecks grace (some t0) cycles).2
        = cycles.map (fun c => (decide (c.1 - t0 < grace), decide (grace ≤ c.1 - t0))) := by
  intro cycles
  induction cycles with
  | nil =>
      intro _
      rfl
  | cons c rest ih =>
      intro hall
      rcases c with ⟨t, up⟩
      have hup : up = false := by
        simpa using hall (t, up) (List.mem_cons_self _ _)
      subst hup
      have hrest := ih (fun c hc => hall c (List.mem_cons_of_mem _ hc))
      rw [runChecks]
      by_cases hge : grace ≤ t - t0
      · have hck : checkNode grace (some t0) t false = (some t0, false, true) := by
          simp [checkNode, hge]
        rw [hck, List.map_cons]
        simp only [hck]
        rw [hrest]
        have hd1 : decide (t - t0 < grace) = false := by
          simp [Nat.not_lt.mpr hge]
        have hd2 : decide (grace ≤ t - t0) = true := by
          simp [hge]
        rw [hd1, hd2]
      · have hck : checkNode grace (some t0) t false = (some t0, true, false) := by
          simp [checkNode, hge]
        rw [hck, List.map_cons]
        simp only [hck]
        rw [hrest]
        have hd1 : decide (t - t0 < grace) = true := by
          simp [Nat.lt_of_not_le hge]
        have hd2 : decide (grace ≤ t - t0) = false := by
          simp [hge]
        rw [hd1, hd2]

/-- C3 as stated is false on the code: with grace 60 and a node down at
clocks 0, 60 and 120, the death transition (redistribute + ring removal) is
performed on BOTH expired cycles, not exactly once. -/
theorem claim_C3_counterexample :
    ¬ (((runChecks 60 none [(0, false), (60, false), (120, false)]).2.filter
        (fun e => e.2)).length ≤ 1) := by
  decide

/-- C3 amended: on the first probe failure the node is recorded and kept in
the live set; from a recorded first failure at `t0`, a continuously failing
node is kept in the live set on exactly the cycles with elapsed time
`< grace` and the death transition is performed on EVERY cycle with elapsed
time `≥ grace` — it is re-executed on each later cycle while the node stays
down, not exactly once. -/
theorem claim_C3_grace_period_and_death (grace t0 : Nat) (cycles : List (Nat × Bool)) :
    (0 < grace → checkNode grace none t0 false = (some t0, true, false)) ∧
    ((∀ c ∈ cycles, c.2 = false) →
      (runChecks grace (some t0) cycles).2
        = cycles.map (fun c => (decide (c.1 - t0 < grace), decide (grace ≤ c.1 - t0)))) := by
  constructor
  · intro hpos
    have h0 : ¬ grace ≤ t0 - t0 := by
      rw [Nat.sub_self]
      omega
    simp [checkNode, h0]
    omega
  · exact runChecks_failing grace t0 cycles

/-- Witness for the amended C3: grace 60, first failure recorded at 0, then
probes at 30 (kept alive, no death), 60 and 120 (death performed on both). -/
theorem claim_C3_grace_period_and_death_witness :
    checkNode 60 none 0 false = (some 0, true, false) ∧
    (runChecks 60 (some 0) [(30, false), (60, false), (120, false)]).2
      = [(true, false), (false, true), (false, true)] :=
  ⟨(claim_C3_grace_period_and_death 60 0 []).1 (by decide),
   by
    rw [(claim_C3_grace_period_and_death 60 0
      [(30, false), (60, false), (120, false)]).2 (by decide)]
    decide⟩

/-- The `POST /sparql` handler `forward_sparql_to_gc` after query
extraction: `query?` is the extracted query (`none` answers 400), `nodes`
the node list read from Redis, `fed` the federated rewriting
(`_convert_to_federated_query`, abstracted as a parameter), and `upstream`
the Global Catalogue's HTTP status for the forwarded query (`none` models a
`requests.RequestException`, answered 502).  Returns the response status
and the query actually POSTed to the Global Catalogue (`none` when nothing
was sent). -/
def forward_sparql_to_gc (upstream : String → Option Nat)
    (fed : String → List Node → String) (query? : Option String)
    (nodes : List Node) : Nat × Option String :=
  match query? with
  | none => (400, none)
  | some q =>
    match upstream (if nodes = [] then q else fed q nodes) with
    | none => (502, some (if nodes = [] then q else fed q nodes))
    | some st => (st, some (if nodes = [] then q else fed q nodes))

/-- C4 as stated is false on the code: with no live nodes the handler does
not answer 500 and does forward the query — it sends the original query
as-is to the Global Catalogue and mirrors its status (here 200). -/
theorem claim_C4_counterexample :
    ¬ ((forward_sparql_to_gc (fun _ => some 200) (fun q _ => q)
          (some "SELECT") []).1 = 500 ∧
       (forward_sparql_to_gc (fun _ => some 200) (fun q _ => q)
          (some "SELECT") []).2 = none) := by
  decide

/-- C4 amended: when a query is present and no live nodes are available, the
handler forwards the ORIGINAL query unfederated to the Global Catalogue and
mirrors the upstream status (502 when the upstream call raises); it does
not answer 500. -/
theorem claim_C4_no_nodes_forwards_original (upstream : String → Option Nat)
    (fed : String → List Node → String) (q : String) (nodes : List Node)
    (h : nodes = []) :
    forward_sparql_to_gc upstream fed (some q) nodes
      = ((upstream q).getD 502, some q) := by
  subst h
  unfold forward_sparql_to_gc
  dsimp only
  rw [if_pos rfl]
  cases upstream q <;> rfl

/-- Witness for the amended C4: empty node list, upstream answering 200. -/
theorem claim_C4_no_nodes_forwards_original_witness :
    forward_sparql_to_gc (fun _ => some 200) (fun q _ => q) (some "SELECT") []
      = (200, some "SELECT") :=
  claim_C4_no_nodes_forwards_original (fun _ => some 200) (fun q _ => q) "SELECT" [] rfl

/-- `get_offerings_meta_for_processing` (src/utils/dlt_comm/get_nodes.py):
`index?` is the ledger's offerings index (`none` models the ledger-level
failure path, where the source returns a degenerate empty list instead of a
pair), `fetchMeta` the per-offering metadata fetch (`none` = fetch failure,
logged and collected as faulty).  The loop appends fetched metadata in
order and collects faulty ids; afterwards each faulty id is removed from
the id list (`list.remove` = first occurrence). -/
def get_offerings_meta_for_processing (index? : Option (List String))
    (fetchMeta : String → Option String) : Option (List String × List String) :=
  match index? with
  | none => none
  | some offering_ids =>
    some
      (((offering_ids.foldl (fun (acc : List String × List String) oid =>
            match fetchMeta oid with
            | some m => (acc.1 ++ [m], acc.2)
            | none => (acc.1, acc.2 ++ [oid])) ([], [])).2).foldl
          (fun l oid => l.erase oid) offering_ids,
        (offering_ids.foldl (fun (acc : List String × List String) oid =>
            match fetchMeta oid with
            | some m => (acc.1 ++ [m], acc.2)
            | none => (acc.1, acc.2 ++ [oid])) ([], [])).1)

lemma gompLoop_spec (f : String → Option String) (ids : List String) :
    ∀ m0 f0 : List String,
      ids.foldl (fun (acc : List String × List String) oid =>
          match f oid with
          | some m => (acc.1 ++ [m], acc.2)
          | none => (acc.1, acc.2 ++ [oid])) (m0, f0)
        = (m0 ++ ids.filterMap f, f0 ++ ids.filter (fun oid => !(f oid).isSome)) := by
  induction ids with
  | nil =>
      intro m0 f0
      simp
  | cons oid rest ih =>
      intro m0 f0
      rw [List.foldl_cons]
      cases hf : f oid with
      | some m =>
          dsimp only
          rw [ih]
          rw [List.filterMap_cons_some hf]
          rw [List.filter_cons_of_neg (by simp [hf])]
          simp
      | none =>
          dsimp only
          rw [ih]
          rw [List.filterMap_cons_none hf]
          rw [List.filter_cons_of_pos (by simp [hf])]
          simp

lemma foldl_erase_cons {α : Type} [DecidableEq α] (xs : List α) (a : α) (l : List α)
    (hne : ∀ x ∈ xs, x ≠ a) :
    xs.foldl (fun acc x => acc.erase x) (a :: l)
      = a :: xs.foldl (fun acc x => acc.erase x) l := by
  induction xs generalizing l with
  | nil => rfl
  | cons x xs2 ih =>
      rw [List.foldl_cons, List.foldl_cons]
      rw [List.erase_cons_tail]
      · exact ih (l.erase x) (fun y hy => hne y (List.mem_cons_of_mem _ hy))
      · simpa using fun hcon => hne x (List.mem_cons_self _ _) hcon.symm

lemma foldl_erase_filter {α : Type} [DecidableEq α] (p : α → Bool) (l : List α) :
    (l.filter (fun a => !(p a))).foldl (fun acc x => acc.erase x) l = l.filter p := by
  induction l with
  | nil => rfl
  | cons a t ih =>
      by_cases hpa : p a
      · rw [List.filter_cons_of_neg (by simp [hpa])]
        rw [foldl_erase_cons _ a t]
        · rw [ih, List.filter_cons_of_pos (by simpa using hpa)]
        · intro x hx
          have hfx := List.of_mem_filter hx
          intro hcon
          subst hcon
          simp [hpa] at hfx
      · rw [List.filter_cons_of_pos (by simp [hpa])]
        rw [List.foldl_cons, List.erase_cons_head]
        rw [ih, List.filter_cons_of_neg (by simpa using hpa)]

lemma filter_map_alignment (f : String → Option String) (l : List String) :
    (l.filter (fun a => (f a).isSome)).map f = (l.filterMap f).map some := by
  induction l with
  | nil => rfl
  | cons a t ih =>
      cases hf : f a with
      | none =>
          rw [List.filter_cons_of_neg (by simp [hf])]
          rw [List.filterMap_cons_none hf]
          exact ih
      | some b =>
          rw [List.filter_cons_of_pos (by simp [hf])]
          rw [List.filterMap_cons_some hf]
          rw [List.map_cons, List.map_cons, hf, ih]

/-- C8. Whenever `get_offerings_meta_for_processing` returns a pair (no
ledger-level failure), the two lists are index-aligned: mapping the
metadata fetch over the cleaned id list reproduces the metadata list
entry by entry (hence equal lengths, the property `setup_worker_pool`
relies on). -/
theorem claim_C8_ids_meta_alignment (index? : Option (List String))
    (fetchMeta : String → Option String) (ids2 metas : List String)
    (h : get_offerings_meta_for_processing index? fetchMeta = some (ids2, metas)) :
    ids2.length = metas.length ∧ ids2.map fetchMeta = metas.map some := by
  cases index? with
  | none => cases h
  | some ids =>
      unfold get_offerings_meta_for_processing at h
      dsimp only at h
      rw [gompLoop_spec] at h
      dsimp only at h
      injection h with h
      injection h with h1 h2
      subst h1
      subst h2
      simp only [List.nil_append]
      rw [foldl_erase_filter (fun oid => (fetchMeta oid).isSome) ids]
      constructor
      · have halign := filter_map_alignment fetchMeta ids
        have := congrArg List.length halign
        simpa using this
      · exact filter_map_alignment fetchMeta ids

/-- Witness for C8 at a two-id index where the second fetch fails. -/
theorem claim_C8_ids_meta_alignment_witness :
    (["a"] : List String).length = (["MA"] : List String).length ∧
    (["a"] : List String).map
        (fun oid => if oid = "a" then (some "MA" : Option String) else none)
      = (["MA"] : List String).map some :=
  claim_C8_ids_meta_alignment (some ["a", "bb"])
    (fun oid => if oid = "a" then some "MA" else none) ["a"] ["MA"] (by decide)

/-- `WorkerPool` task bookkeeping: `results` maps a task id to its record;
the record is abstracted to its future handle (a `Nat`), which is what
distinguishes two submissions. -/
structure PoolState where
  results : List (String × Nat)
deriving DecidableEq, Repr

/-- `WorkerPool.submit_task`: the task id is derived solely from the
submission wall clock (`"task_" + int(time.time() * 1000)`); the new record
overwrites any existing entry under the same id. -/
def submit_task (st : PoolState) (nowMs : Nat) (future : Nat) : String × PoolState :=
  ("task_" ++ toString nowMs, ⟨dset st.results ("task_" ++ toString nowMs) future⟩)

/-- `WorkerPool.submit_batch`: submit each task in order; `clock i` is the
wall clock observed by the i-th `submit_task` call. -/
def submit_batch_aux (clock : Nat → Nat) (i : Nat) (st : PoolState) :
    List Nat → List String × PoolState
  | [] => ([], st)
  | fut :: rest =>
    ((submit_task st (clock i) fut).1
        :: (submit_batch_aux clock (i + 1) (submit_task st (clock i) fut).2 rest).1,
      (submit_batch_aux clock (i + 1) (submit_task st (clock i) fut).2 rest).2)

def submit_batch (st : PoolState) (clock : Nat → Nat) (futures : List Nat) :
    List String × PoolState :=
  submit_batch_aux clock 0 st futures

/-- C9. The task id depends only on the submission millisecond, so a batch
of two tasks submitted in the same millisecond returns the identical id
twice and the second record overwrites the first: the results map then
yields the second future under that id, making the first task's record
unreachable. -/
theorem claim_C9_task_id_collision (st : PoolState) (ms f1 f2 : Nat) :
    (submit_task st ms f1).1 = "task_" ++ toString ms ∧
    (submit_batch st (fun _ => ms) [f1, f2]).1
      = ["task_" ++ toString ms, "task_" ++ toString ms] ∧
    dget? (submit_batch st (fun _ => ms) [f1, f2]).2.results ("task_" ++ toString ms)
      = some f2 := by
  refine ⟨rfl, rfl, ?_⟩
  unfold submit_batch submit_batch_aux submit_task
  dsimp only
  exact dget?_dset_self _ _ _

lemma dcontains_false_not_mem_keys {α β : Type} [DecidableEq α]
    {m : List (α × β)} {k : α} (h : ¬ dcontains m k = true) :
    k ∉ m.map (fun p => p.1) := by
  intro hcon
  apply h
  rw [dcontains, List.any_eq_true]
  rw [List.mem_map] at hcon
  obtain ⟨p, hp, hpk⟩ := hcon
  exact ⟨p, hp, by simpa using hpk⟩

lemma dset_keys_eq {α β : Type} [DecidableEq α] (m : List (α × β)) (k : α) (v : β)
    (hc : dcontains m k = true) :
    (dset m k v).map (fun p => p.1) = m.map (fun p => p.1) := by
  unfold dset
  rw [if_pos hc, List.map_map]
  congr 1
  funext p
  by_cases hpk : p.1 = k
  · simp [hpk]
  · simp [hpk]

lemma dset_keys_nodup {α β : Type} [DecidableEq α] (m : List (α × β)) (k : α) (v : β)
    (h : (m.map (fun p => p.1)).Nodup) :
    ((dset m k v).map (fun p => p.1)).Nodup := by
  by_cases hc : dcontains m k
  · rw [dset_keys_eq m k v hc]
    exact h
  · unfold dset
    rw [if_neg hc, List.map_append]
    rw [List.nodup_append]
    refine ⟨h, by simp, ?_⟩
    intro x hx hx2
    simp only [List.map_cons, List.map_nil, List.mem_singleton] at hx2
    subst hx2
    exact dcontains_false_not_mem_keys hc hx

lemma dset_keys_mem {α β : Type} [DecidableEq α] (m : List (α × β)) (k : α) (v : β)
    (i : α) :
    (∃ e ∈ dset m k v, e.1 = i) ↔ (∃ e ∈ m, e.1 = i) ∨ i = k := by
  unfold dset
  by_cases hc : dcontains m k
  · rw [if_pos hc]
    constructor
    · rintro ⟨e, he, hei⟩
      rw [List.mem_map] at he
      obtain ⟨p, hp, hpe⟩ := he
      by_cases hpk : p.1 = k
      · rw [if_pos hpk] at hpe
        subst hpe
        exact Or.inr hei.symm
      · rw [if_neg hpk] at hpe
        subst hpe
        exact Or.inl ⟨p, hp, hei⟩
    · rintro (⟨e, he, hei⟩ | hik)
      · by_cases hek : e.1 = k
        · refine ⟨(k, v), List.mem_map.mpr ⟨e, he, by rw [if_pos hek]⟩, ?_⟩
          rw [← hek, hei]
        · exact ⟨e, List.mem_map.mpr ⟨e, he, by rw [if_neg hek]⟩, hei⟩
      · subst hik
        rw [dcontains, List.any_eq_true] at hc
        obtain ⟨p, hp, hpk⟩ := hc
        have hpk2 : p.1 = i := by simpa using hpk
        exact ⟨(i, v), List.mem_map.mpr ⟨p, hp, by rw [if_pos hpk2]⟩, rfl⟩
  · rw [if_neg hc]
    constructor
    · rintro ⟨e, he, hei⟩
      rcases List.mem_append.mp he with he | he
      · exact Or.inl ⟨e, he, hei⟩
      · rw [List.mem_singleton] at he
        subst he
        exact Or.inr hei.symm
    · rintro (⟨e, he, hei⟩ | hik)
      · exact ⟨e, List.mem_append.mpr (Or.inl he), hei⟩
      · subst hik
        exact ⟨(i, v), List.mem_append.mpr (Or.inr (List.mem_singleton.mpr rfl)), rfl⟩

lemma ketamaFold_spec (nodes : List Node) :
    ∀ acc : List (String × Node), (acc.map (fun p => p.1)).Nodup →
      (((nodes.foldl (fun acc n => if n.id ≠ "" then dset acc n.id n else acc)
          acc).map (fun p => p.1)).Nodup ∧
        ∀ i, (∃ e ∈ nodes.foldl (fun acc n => if n.id ≠ "" then dset acc n.id n else acc)
            acc, e.1 = i) ↔
          (∃ e ∈ acc, e.1 = i) ∨ ∃ n ∈ nodes, n.id = i ∧ i ≠ "") := by
  induction nodes with
  | nil =>
      intro acc hnd
      refine ⟨hnd, fun i => ?_⟩
      simp
  | cons n rest ih =>
      intro acc hnd
      rw [List.foldl_cons]
      by_cases hid : n.id ≠ ""
      · rw [if_pos hid]
        obtain ⟨ihnd, ihmem⟩ := ih (dset acc n.id n) (dset_keys_nodup _ _ _ hnd)
        refine ⟨ihnd, fun i => ?_⟩
        rw [ihmem i, dset_keys_mem]
        constructor
        · rintro ((h | h) | h)
          · exact Or.inl h
          · subst h
            exact Or.inr ⟨n, List.mem_cons_self _ _, rfl, hid⟩
          · obtain ⟨n2, hn2, hn2i, hine⟩ := h
            exact Or.inr ⟨n2, List.mem_cons_of_mem _ hn2, hn2i, hine⟩
        · rintro (h | ⟨n2, hn2, hn2i, hine⟩)
          · exact Or.inl (Or.inl h)
          · rcases List.mem_cons.mp hn2 with rfl | hn2
            · exact Or.inl (Or.inr hn2i.symm)
            · exact Or.inr ⟨n2, hn2, hn2i, hine⟩
      · rw [if_neg hid]
        have hids : n.id = "" := by
          by_contra hcon
          exact hid hcon
        obtain ⟨ihnd, ihmem⟩ := ih acc hnd
        refine ⟨ihnd, fun i => ?_⟩
        rw [ihmem i]
        constructor
        · rintro (h | ⟨n2, hn2, hn2i, hine⟩)
          · exact Or.inl h
          · exact Or.inr ⟨n2, List.mem_cons_of_mem _ hn2, hn2i, hine⟩
        · rintro (h | ⟨n2, hn2, hn2i, hine⟩)
          · exact Or.inl h
          · rcases List.mem_cons.mp hn2 with rfl | hn2
            · exfalso
              apply hine
              rw [← hn2i, hids]
            · exact Or.inr ⟨n2, hn2, hn2i, hine⟩

/-- C10. `KetamaRouter.__init__` raises `ValueError` exactly when no input
node has a truthy `id` (including the empty list); otherwise it succeeds
and the built map has exactly one entry per distinct truthy node id.  The
MD5 ring variant, by contrast, represents the empty ring as an ordinary
value (`initialRingState`). -/
theorem claim_C10_ketama_init_validation (nodes : List Node) :
    ((∀ n ∈ nodes, n.id = "") →
      ketamaInit nodes = Except.error "No valid nodes provided") ∧
    ((∃ n ∈ nodes, n.id ≠ "") →
      ∃ r, ketamaInit nodes = Except.ok r ∧
        (r.nodes_map.map (fun p => p.1)).Nodup ∧
        (∀ i, (∃ e ∈ r.nodes_map, e.1 = i) ↔ ∃ n ∈ nodes, n.id = i ∧ i ≠ "")) ∧
    initialRingState.sorted_keys = [] := by
  obtain ⟨hnd, hmem⟩ := ketamaFold_spec nodes [] (by simp)
  refine ⟨?_, ?_, rfl⟩
  · intro hall
    have hnil : nodes.foldl (fun acc n => if n.id ≠ "" then dset acc n.id n else acc) []
        = [] := by
      cases hF : nodes.foldl (fun acc n => if n.id ≠ "" then dset acc n.id n else acc) []
          with
      | nil => rfl
      | cons e t =>
          exfalso
          have hone : ∃ x ∈ nodes.foldl
              (fun acc n => if n.id ≠ "" then dset acc n.id n else acc) [], x.1 = e.1 := by
            rw [hF]
            exact ⟨e, List.mem_cons_self _ _, rfl⟩
          rcases (hmem e.1).mp hone with h | ⟨n2, hn2, hn2i, hine⟩
          · simp at h
          · exact hine (hn2i ▸ hall n2 hn2)
    unfold ketamaInit
    dsimp only
    rw [hnil]
    rfl
  · rintro ⟨n0, hn0, hn0id⟩
    have hne : nodes.foldl (fun acc n => if n.id ≠ "" then dset acc n.id n else acc) []
        ≠ [] := by
      intro hcon
      have hone := (hmem n0.id).mpr (Or.inr ⟨n0, hn0, rfl, hn0id⟩)
      rw [hcon] at hone
      obtain ⟨x, hx, _⟩ := hone
      cases hx
    unfold ketamaInit
    dsimp only
    rw [if_neg hne]
    refine ⟨⟨nodes.foldl (fun acc n => if n.id ≠ "" then dset acc n.id n else acc) []⟩,
      rfl, hnd, fun i => ?_⟩
    rw [hmem i]
    simp

/-- Witness for C10: a single falsy-id node raises; a single truthy-id node
builds a router. -/
theorem claim_C10_ketama_init_validation_witness :
    ketamaInit [⟨"", "u"⟩] = Except.error "No valid nodes provided" ∧
    (ketamaInit [⟨"a", "ua"⟩]).isOk = true := by
  constructor
  · exact (claim_C10_ketama_init_validation [⟨"", "u"⟩]).1 (by decide)
  · obtain ⟨r, hr, _⟩ := (claim_C10_ketama_init_validation [⟨"a", "ua"⟩]).2.1
      ⟨⟨"a", "ua"⟩, by decide, by decide⟩
    rw [hr]
    rfl
